import Mathlib

set_option maxRecDepth 16000

/-!
Shallow embedding of the weave-chunker indexing/retrieval pipeline.

Text is modelled as `List Char` (`Str`).  JavaScript strings are UTF-16;
all concrete inputs used below are ASCII, where the two views agree, and
the character-class predicates (`\s`, `\p{L}`, `\p{N}`) are modelled on
their ASCII fragment.  JavaScript floating-point arithmetic is modelled
as exact rational arithmetic (`ℚ`, or integer arithmetic scaled by a
common denominator where the scaling is exact).  Multiline regex counts
(`/^.../gm`) are modelled per line of the subject string.

The stored chunk id is `sha1(key)` for a key string assembled in
`bake.ts`; `sha1` is a fixed deterministic function of its input, so all
statements about ids are made about the key strings (`idKey`, `shaKey`)
that the source passes to `sha1`.
-/

abbrev Str := List Char

/-- JS whitespace class `\s` (ASCII fragment). -/
def jsWs (c : Char) : Bool :=
  c = ' ' || c = '\t' || c = '\n' || c = '\r' || c = Char.ofNat 11 || c = Char.ofNat 12

/-- The backtick character (written via its code point). -/
def btick : Char := Char.ofNat 96

def trimLeft (s : Str) : Str := s.dropWhile jsWs

def trimRight (s : Str) : Str := (s.reverse.dropWhile jsWs).reverse

/-- JS `String.prototype.trim`. -/
def trimWs (s : Str) : Str := trimLeft (trimRight s)

/-- One pass of `replace(/\n{3,}/g, "\n\n")`: a run of three or more
newlines collapses to two. `pending` counts newlines seen but not yet
emitted. -/
def collapseNlGo (pending : Nat) : Str → Str
  | [] => List.replicate (min pending 2) '\n'
  | c :: cs =>
    if c = '\n' then collapseNlGo (pending + 1) cs
    else List.replicate (min pending 2) '\n' ++ c :: collapseNlGo 0 cs

/-- `normalizeBlock` from chunker.ts: strip the trailing `\s+` run, then
the leading `\s+` run, then collapse newline runs of length ≥ 3 to 2. -/
def normalizeBlock (s : Str) : Str := collapseNlGo 0 (trimLeft (trimRight s))

/-- `md.replace(/\r\n/g, "\n").split("\n")`. -/
def splitLinesGo (cur : Str) : Str → List Str
  | [] => [cur.reverse]
  | '\r' :: '\n' :: cs => cur.reverse :: splitLinesGo [] cs
  | '\n' :: cs => cur.reverse :: splitLinesGo [] cs
  | c :: cs => splitLinesGo (c :: cur) cs

def toLines (md : Str) : List Str := splitLinesGo [] md

/-- Plain `s.split("\n")` (no `\r\n` handling), as used on section text. -/
def splitNlGo (cur : Str) : Str → List Str
  | [] => [cur.reverse]
  | c :: cs => if c = '\n' then cur.reverse :: splitNlGo [] cs else splitNlGo (c :: cur) cs

def splitNl (s : Str) : List Str := splitNlGo [] s

/-- `isFence`: `/^\s*```/`. -/
def isFence (s : Str) : Bool := (s.dropWhile jsWs).take 3 = [btick, btick, btick]

/-- `isHeading`: `/^(#{1,6})\s+(.*)$/`.  Returns the number of `#`
characters and the title (the remainder after the greedy `\s+` run).
A run of seven or more `#` cannot match, because the character after the
matched 1–6 hashes is then another `#`, not whitespace. -/
def isHeading (s : Str) : Option (Nat × Str) :=
  let hashes := s.takeWhile (· = '#')
  let rest := s.dropWhile (· = '#')
  if 1 ≤ hashes.length ∧ hashes.length ≤ 6 then
    match rest with
    | c :: cs => if jsWs c then some (hashes.length, (c :: cs).dropWhile jsWs) else none
    | [] => none
  else none

/-- ASCII fragment of `\p{L}`. -/
def isAsciiAlpha (c : Char) : Bool := c.isAlpha

/-- ASCII fragment of `\p{N}`. -/
def isAsciiDigit (c : Char) : Bool := c.isDigit

def isAlnum (c : Char) : Bool := isAsciiAlpha c || isAsciiDigit c

/-- Markdown marker characters `[*_`~]` removed by `slugify`. -/
def isMark (c : Char) : Bool := c = '*' || c = '_' || c = btick || c = '~'

/-- Helper for the link regex `/!?\[.*?\]\(.*?\)/g`: after an opening
bracket, find the first `](` (the lazy `.*?` stops there); `.` does not
match a newline. -/
def findBracketEnd : Str → Option (Str × Str)
  | [] => none
  | ']' :: '(' :: cs => some ([], cs)
  | '\n' :: _ => none
  | c :: cs =>
    match findBracketEnd cs with
    | some (inner, rest) => some (c :: inner, rest)
    | none => none

/-- Find the first `)` closing the link URL (lazy `.*?`). -/
def findParenEnd : Str → Option Str
  | [] => none
  | ')' :: cs => some cs
  | '\n' :: _ => none
  | _ :: cs => findParenEnd cs

/-- `replace(/!?\[.*?\]\(.*?\)/g, m => inner)`: each link or image is
replaced by its visible text.  On a failed match the scan advances one
character, as the regex engine does.  Fuel is the remaining length. -/
def stripLinksGo : Nat → Str → Str
  | 0, s => s
  | _, [] => []
  | fuel + 1, '!' :: '[' :: cs =>
    (match findBracketEnd cs with
     | some (inner, rest1) =>
       match findParenEnd rest1 with
       | some rest2 => inner ++ stripLinksGo fuel rest2
       | none => '!' :: stripLinksGo fuel ('[' :: cs)
     | none => '!' :: stripLinksGo fuel ('[' :: cs))
  | fuel + 1, '[' :: cs =>
    (match findBracketEnd cs with
     | some (inner, rest1) =>
       match findParenEnd rest1 with
       | some rest2 => inner ++ stripLinksGo fuel rest2
       | none => '[' :: stripLinksGo fuel cs
     | none => '[' :: stripLinksGo fuel cs)
  | fuel + 1, c :: cs => c :: stripLinksGo fuel cs

def stripLinks (s : Str) : Str := stripLinksGo s.length s

/-- Characters kept by `slugify`: letters/digits/space/slash/colon/hyphen. -/
def isSlugKeep (c : Char) : Bool := isAlnum c || jsWs c || c = '/' || c = ':' || c = '-'

/-- Collapse runs of `-` to a single `-` (`replace(/[-]+/g, "-")`). -/
def collapseDashGo (prevDash : Bool) : Str → Str
  | [] => []
  | c :: cs =>
    if c = '-' then
      if prevDash then collapseDashGo true cs else '-' :: collapseDashGo true cs
    else c :: collapseDashGo false cs

def isDashSlash (c : Char) : Bool := c = '-' || c = '/'

/-- `replace(/^[-\/]+|[-\/]+$/g, "")`. -/
def trimDashSlash (s : Str) : Str :=
  ((s.dropWhile isDashSlash).reverse.dropWhile isDashSlash).reverse

/-- `slugify` from chunker.ts.  The two consecutive source passes
`replace(/\s+/g, "-")` then `replace(/[-]+/g, "-")` are modelled as
mapping each whitespace character to `-` and collapsing `-` runs, which
yields the same string (both turn every maximal run of
whitespace-or-hyphen characters into a single hyphen). -/
def slugify (raw : Str) : Str :=
  let s1 := trimWs raw
  let s2 := s1.filter (fun c => !(isMark c))
  let s3 := stripLinks s2
  let s4 := s3.dropWhile (fun c => !(isAlnum c))
  let s5 := s4.filter isSlugKeep
  let s6 := s5.map Char.toLower
  let s7 := collapseDashGo false (s6.map (fun c => if jsWs c then '-' else c))
  let s8 := trimDashSlash s7
  if s8 = [] then ("section").toList else s8

structure HFrame where
  level : Nat
  slug : Str
  title : Str
deriving DecidableEq

structure HCtx where
  h1 : Option HFrame := none
  h2 : Option HFrame := none
  h3 : Option HFrame := none
deriving DecidableEq

structure DocSection where
  path : Str
  text : Str
  title : Option Str
  parent : Option Str
deriving DecidableEq

structure SecState where
  ctx : HCtx
  buf : List Str
  inFence : Bool
  sections : List DocSection
deriving DecidableEq

/-- `currentPath` from chunker.ts, in the source's test order. -/
def currentPath (c : HCtx) : Str :=
  match c.h1, c.h2, c.h3 with
  | _, some f2, some f3 => f2.slug ++ '/' :: f3.slug
  | some f1, none, some f3 => f1.slug ++ '/' :: f3.slug
  | _, some f2, none => f2.slug
  | none, none, some f3 => f3.slug
  | some f1, none, none => f1.slug
  | none, none, none => ("intro").toList

/-- `currentTitle`: deepest active heading's text. -/
def currentTitle (c : HCtx) : Option Str :=
  match c.h3 with
  | some f => some f.title
  | none =>
    match c.h2 with
    | some f => some f.title
    | none =>
      match c.h1 with
      | some f => some f.title
      | none => none

/-- `currentParent`: next heading level up from the deepest active one. -/
def currentParent (c : HCtx) : Option Str :=
  match c.h3, c.h2 with
  | some _, some f2 => some f2.title
  | _, _ =>
    match c.h2, c.h1 with
    | some _, some f1 => some f1.title
    | _, _ => none

/-- `buf.join("\n")`. -/
def joinNl : List Str → Str
  | [] => []
  | [l] => l
  | l :: rest => l ++ '\n' :: joinNl rest

/-- `flush` from chunker.ts: emit the accumulated buffer as a section if
its normalized text is non-blank. -/
def flush (st : SecState) : SecState :=
  let text := normalizeBlock (joinNl st.buf)
  if trimWs text = [] then { st with buf := [] }
  else
    { st with
      sections := st.sections ++
        [{ path := currentPath st.ctx, text := text,
           title := currentTitle st.ctx, parent := currentParent st.ctx }],
      buf := [] }

/-- The per-line step of the sectionizer loop in `chunkMarkdownByMeaning`.
Fence markers toggle `inFence`; inside a fence every line is skipped;
headings flush and update the context (levels above 3 clamp to 3, an H1
resets the whole context, an H2 clears H3, an H3 only replaces H3); any
other line is appended to the section buffer. -/
def stepLine (st : SecState) (line : Str) : SecState :=
  if isFence line then { st with inFence := !st.inFence }
  else if st.inFence then st
  else
    match isHeading line with
    | some (lv, title) =>
      let st' := flush st
      let level := min 3 lv
      let fr : HFrame := { level := level, slug := slugify title, title := title }
      if level = 1 then { st' with ctx := { h1 := some fr, h2 := none, h3 := none } }
      else if level = 2 then { st' with ctx := { st'.ctx with h2 := some fr, h3 := none } }
      else { st' with ctx := { st'.ctx with h3 := some fr } }
    | none => { st with buf := st.buf ++ [line] }

def initState : SecState := { ctx := {}, buf := [], inFence := false, sections := [] }

/-- The sectionizer phase of `chunkMarkdownByMeaning`: fold the line step
over all lines, then a final flush. -/
def sectionize (md : Str) : List DocSection :=
  (flush ((toLines md).foldl stepLine initState)).sections

/-- `text.split(/\n{2,}/)`: paragraphs are separated by maximal runs of
two or more newlines; a single newline stays inside its paragraph.
`pending` counts newlines seen since the last non-newline character. -/
def splitParasGo (cur : Str) (pending : Nat) : Str → List Str
  | [] =>
    if pending ≥ 2 then [cur.reverse, []]
    else [(List.replicate pending '\n' ++ cur).reverse]
  | c :: cs =>
    if c = '\n' then splitParasGo cur (pending + 1) cs
    else if pending ≥ 2 then cur.reverse :: splitParasGo [c] 0 cs
    else splitParasGo (c :: (List.replicate pending '\n' ++ cur)) 0 cs

def splitParas (s : Str) : List Str := splitParasGo [] 0 s

def countPipes (s : Str) : Nat := (s.filter (· = '|')).length

/-- Line matching `/^(\s*[-*+]|\s*\d+\.)\s+/` (the list-marker regex of
`estimateTokens`), modelled per line. -/
def isEstListLine (l : Str) : Bool :=
  let r := l.dropWhile jsWs
  (match r with
   | c :: d :: _ => (c = '-' || c = '*' || c = '+') && jsWs d
   | _ => false) ||
  (let ds := r.takeWhile Char.isDigit
   (!ds.isEmpty) &&
     (match r.dropWhile Char.isDigit with
      | '.' :: e :: _ => jsWs e
      | _ => false))

/-- `estimateTokens` from chunker.ts:
`max(1, floor(ceil(len/4) * (1 + 0.03·pipes + 0.05·listLines)))`.
The factor `1 + 0.03·p + 0.05·l` equals `(100 + 3·p + 5·l)/100` exactly,
so the floor is natural-number division (JS float rounding is modelled
as exact arithmetic). -/
def estimateTokens (s : Str) : Nat :=
  let approx := (s.length + 3) / 4
  let p := countPipes s
  let l := ((splitNl s).filter isEstListLine).length
  max 1 (approx * (100 + 3 * p + 5 * l) / 100)

structure SplitOptions where
  maxTokens : Nat := 400
  overlapRatio : ℚ := mkRat 3 20
deriving DecidableEq

/-- `Math.floor(len * ratio)`, computed as the floor of
`mkRat (len * ratio.num) ratio.den` so that it is kernel-computable;
this equals `⌊(len : ℚ) * ratio⌋` (see `overlapChars_eq_floor`). -/
def overlapChars (len : Nat) (ratio : ℚ) : Nat :=
  (Rat.floor (mkRat ((len : Int) * ratio.num) ratio.den)).toNat

/-- `committed.slice(Math.max(0, committed.length - overlapChars))`:
the trailing `overlapChars` characters of the committed block
(truncated subtraction plays the role of `Math.max(0, ·)`). -/
def overlapOf (committed : Str) (ratio : ℚ) : Str :=
  committed.drop (committed.length - overlapChars committed.length ratio)

/-- `buf.join("\n\n")`. -/
def joinParas : List Str → Str
  | [] => []
  | [p] => p
  | p :: rest => p ++ '\n' :: '\n' :: joinParas rest

/-- Accumulator of the `splitSectionBySize` loop.  `events` additionally
records, at every boundary where an overlap fragment was seeded, the
pair (seeded fragment, committed block); the source mutates `buf` with
exactly this fragment there. -/
structure SplitAcc where
  out : List Str
  buf : List Str
  tokens : Nat
  events : List (Str × Str)
deriving DecidableEq

/-- One iteration of the paragraph loop of `splitSectionBySize`. -/
def splitStep (opts : SplitOptions) (acc : SplitAcc) (p : Str) : SplitAcc :=
  let t := estimateTokens p
  let acc1 :=
    if acc.tokens > 0 ∧ acc.tokens + t > opts.maxTokens then
      let committed := normalizeBlock (joinParas acc.buf)
      let out' := if acc.buf = [] then acc.out else acc.out ++ [committed]
      if committed.length > 0 then
        let ov := overlapOf committed opts.overlapRatio
        if trimWs ov ≠ [] then
          { out := out', buf := [ov], tokens := estimateTokens ov,
            events := acc.events ++ [(ov, committed)] }
        else { out := out', buf := [], tokens := 0, events := acc.events }
      else { out := out', buf := [], tokens := 0, events := acc.events }
    else acc
  { acc1 with buf := acc1.buf ++ [p], tokens := acc1.tokens + t }

def splitRun (text : Str) (opts : SplitOptions) : SplitAcc :=
  (splitParas text).foldl (splitStep opts) ⟨[], [], 0, []⟩

/-- The final `commit()` of `splitSectionBySize`. -/
def splitFinish (acc : SplitAcc) : List Str :=
  if acc.buf = [] then acc.out else acc.out ++ [normalizeBlock (joinParas acc.buf)]

/-- `splitSectionBySize` from chunker.ts. -/
def splitSectionBySize (text : Str) (opts : SplitOptions) : List Str :=
  splitFinish (splitRun text opts)

/-- The overlap fragments seeded while splitting `text`. -/
def splitEvents (text : Str) (opts : SplitOptions) : List (Str × Str) :=
  (splitRun text opts).events

inductive ContentType
  | narrative
  | list
  | quote
  | mixed
deriving DecidableEq

/-- Line matching `/^\s*[-*+•]\s+/` (content-type list regex). -/
def isListLine (l : Str) : Bool :=
  match l.dropWhile jsWs with
  | c :: d :: _ => (c = '-' || c = '*' || c = '+' || c = '•') && jsWs d
  | _ => false

/-- Line matching `/^\s*\d+\.\s+/`. -/
def isNumberedLine (l : Str) : Bool :=
  let r := l.dropWhile jsWs
  let ds := r.takeWhile Char.isDigit
  (!ds.isEmpty) &&
    (match r.dropWhile Char.isDigit with
     | '.' :: e :: _ => jsWs e
     | _ => false)

/-- Line matching `/^\s*>/`. -/
def isQuoteLine (l : Str) : Bool :=
  match l.dropWhile jsWs with
  | c :: _ => c = '>'
  | [] => false

def isUpperAZ (c : Char) : Bool := decide ('A' ≤ c) && decide (c ≤ 'Z')

def isLowerAZ (c : Char) : Bool := decide ('a' ≤ c) && decide (c ≤ 'z')

/-- Count of matches of `/[A-Z][a-z]+/g`: a left-to-right non-overlapping
scan; each match consumes the capital and the maximal lowercase run.
Fuel is the remaining length (every step consumes at least one char). -/
def countCapGo : Nat → Str → Nat
  | 0, _ => 0
  | _, [] => 0
  | fuel + 1, c :: cs =>
    if isUpperAZ c then
      match cs with
      | d :: _ =>
        if isLowerAZ d then 1 + countCapGo fuel (cs.dropWhile isLowerAZ)
        else countCapGo fuel cs
      | [] => 0
    else countCapGo fuel cs

def countCapWords (s : Str) : Nat := countCapGo s.length s

/-- Count of matches of `/\*\*[^*]+\*\*|\*[^*]+\*/g` with the regex
engine's semantics: at each position the double-star alternative is
tried first; on failure the scan advances a single character. -/
def countEmphGo : Nat → Str → Nat
  | 0, _ => 0
  | _, [] => 0
  | fuel + 1, '*' :: '*' :: cs =>
    let inner := cs.takeWhile (· ≠ '*')
    (if !inner.isEmpty then
      match cs.dropWhile (· ≠ '*') with
      | '*' :: '*' :: cs2 => 1 + countEmphGo fuel cs2
      | _ => countEmphGo fuel ('*' :: cs)
     else countEmphGo fuel ('*' :: cs))
  | fuel + 1, '*' :: cs =>
    let inner := cs.takeWhile (· ≠ '*')
    (if !inner.isEmpty then
      match cs.dropWhile (· ≠ '*') with
      | '*' :: cs2 => 1 + countEmphGo fuel cs2
      | _ => countEmphGo fuel cs
     else countEmphGo fuel cs)
  | fuel + 1, _ :: cs => countEmphGo fuel cs

def countEmph (s : Str) : Nat := countEmphGo s.length s

/-- `analyzeContent` from chunker.ts.  Ratio comparisons are modelled by
exact cross-multiplication (`quoteLines/total > 1/2 ↔ 2·quoteLines >
total`, etc.; `total ≥ 1` always).  The importance accumulation is
computed scaled by 100 in `ℤ` — every summand of the source is an exact
multiple of 1/100 — and rescaled at the end, which is exactly the
source's arithmetic on exact rationals. -/
def analyzeContent (text : Str) : ContentType × ℚ :=
  let listLines := ((splitNl text).filter isListLine).length
  let numberedLines := ((splitNl text).filter isNumberedLine).length
  let quoteLines := ((splitNl text).filter isQuoteLine).length
  let totalLines := (splitNl text).length
  let listNum := listLines + numberedLines
  let ctype : ContentType :=
    if 2 * quoteLines > totalLines then .quote
    else if 5 * listNum > 2 * totalLines then .list
    else if 10 * listNum > totalLines ∨ 10 * quoteLines > totalLines then .mixed
    else .narrative
  let properNouns := countCapWords text
  let emphasized := countEmph text
  let imp1 : Int := 50 + min 30 (2 * (properNouns : Int))
  let imp2 := imp1 + min 20 (5 * (emphasized : Int))
  let imp3 := imp2 + (if 5 * quoteLines > totalLines then 15 else 0)
  let imp4 := imp3 + (if 10 * listNum > 3 * totalLines then 10 else 0)
  let imp5 := imp4 - (if text.length < 100 then 20 else 0)
  (ctype, mkRat (max 10 (min 100 imp5)) 100)

structure ChunkMeta where
  universeTag : Option Str
  species : Option Str
  subspecies : Option Str
  source_file : Str
  section_path : Str
  section_title : Option Str
  parent_section : Option Str
  entities : List Str
  aliases : List Str
  concepts : List Str
  content_type : ContentType
  importance_score : ℚ
  parent_chunk_id : Option Str
deriving DecidableEq

structure MeaningChunk where
  id : Str
  text : Str
  meta : ChunkMeta
deriving DecidableEq

structure BaseMeta where
  universeTag : Option Str
  species : Option Str
  subspecies : Option Str
deriving DecidableEq

/-- JS `s.includes(sub)`. -/
def strIncludes (s sub : Str) : Bool := decide (sub <:+: s)

/-- `fullText` of a section: the title prepended for analysis when the
title is truthy (non-empty). -/
def sectionFullText (sec : DocSection) : Str :=
  match sec.title with
  | some t => if t.isEmpty then sec.text else t ++ '\n' :: '\n' :: sec.text
  | none => sec.text

/-- `contextualText` of a section: the title prepended when truthy and
not already contained in the text. -/
def contextualTextOf (sec : DocSection) : Str :=
  match sec.title with
  | some t =>
    if !t.isEmpty && !(strIncludes sec.text t) then t ++ '\n' :: '\n' :: sec.text
    else sec.text
  | none => sec.text

/-- Metadata for a chunk built from section `sec`. -/
def mkMeta (sourceFile : Str) (base : BaseMeta) (sec : DocSection)
    (entities concepts : List Str) (ct : ContentType) (imp : ℚ)
    (parent : Option Str) : ChunkMeta :=
  { universeTag := base.universeTag, species := base.species,
    subspecies := base.subspecies, source_file := sourceFile,
    section_path := sec.path, section_title := sec.title,
    parent_section := sec.parent, entities := entities, aliases := [],
    concepts := concepts, content_type := ct, importance_score := imp,
    parent_chunk_id := parent }

/-- The per-section chunk-emission phase of `chunkMarkdownByMeaning`.
The regex-heuristic extractors `extractEntities` / `extractConcepts`
only populate the `entities` / `concepts` metadata fields, which no
claim constrains; they are pure functions of the analysed text and the
embedding takes them as parameters, so every theorem below holds for
the source's extractors in particular.  A JS falsy check (`sec.title ?
… : …`) treats an empty title like an absent one. -/
def sectionChunks (extractEnt extractCon : Str → List Str)
    (sourceFile : Str) (base : BaseMeta) (opts : SplitOptions)
    (sec : DocSection) : List MeaningChunk :=
  let est := estimateTokens sec.text
  let entities := extractEnt (sectionFullText sec)
  let concepts := extractCon (sectionFullText sec)
  let ai := analyzeContent sec.text
  let contextualText := contextualTextOf sec
  if est ≤ opts.maxTokens then
    [⟨[], contextualText, mkMeta sourceFile base sec entities concepts ai.1 ai.2 none⟩]
  else
    let parts := splitSectionBySize contextualText opts
    if parts.length ≤ 1 then
      [⟨[], contextualText, mkMeta sourceFile base sec entities concepts ai.1 ai.2 none⟩]
    else
      let parentId := sourceFile ++ ':' :: sec.path
      parts.map (fun p =>
        ⟨[], p, mkMeta sourceFile base sec (extractEnt p) (extractCon p)
          (analyzeContent p).1 (analyzeContent p).2 (some parentId)⟩)

/-- `chunkMarkdownByMeaning` from chunker.ts: sectionize, then emit
chunks per section, splitting oversized sections by size. -/
def chunkMarkdownByMeaning (extractEnt extractCon : Str → List Str)
    (md : Str) (sourceFile : Str) (base : BaseMeta)
    (opts : SplitOptions) : List MeaningChunk :=
  (sectionize md).flatMap (sectionChunks extractEnt extractCon sourceFile base opts)

/-- A row passed to `VectorStore.upsertMany` by `bake`.  `idKey` and
`shaKey` are the strings the source feeds to `sha1` to obtain the stored
`id` and `sha`. -/
structure StoreRow where
  idKey : Str
  path : Str
  chunk : Str
  embedding : List ℚ
  shaKey : Str
  metadata : ChunkMeta
deriving DecidableEq

def natToStr (n : Nat) : Str := (toString n).toList

/-- The sha1 preimage of a row id in `bake.ts`:
`${source_file}:${section_path}${subKey}` where `subKey` is `:${j}` when
`parent_chunk_id` is set (`j` being the row's index within its
batch slice) and empty otherwise. -/
def rowIdKey (c : MeaningChunk) (j : Nat) : Str :=
  c.meta.source_file ++ ':' :: c.meta.section_path ++
    (match c.meta.parent_chunk_id with
     | some _ => ':' :: natToStr j
     | none => [])

/-- The row built for chunk `c` at index `j` of its batch slice. -/
def mkRow (embed : Str → List ℚ) (rel : Str) (c : MeaningChunk) (j : Nat) :
    StoreRow :=
  { idKey := rowIdKey c j, path := rel, chunk := c.text,
    embedding := embed c.text, shaKey := rel ++ ':' :: c.text,
    metadata := c.meta }

/-- `slice.map((s, j) => …)` of `bake.ts`, building the rows of one
batch; `j` counts from 0 within the slice. -/
def mkRowsGo (embed : Str → List ℚ) (rel : Str) (j : Nat) :
    List MeaningChunk → List StoreRow
  | [] => []
  | c :: cs => mkRow embed rel c j :: mkRowsGo embed rel (j + 1) cs

def mkRows (embed : Str → List ℚ) (rel : Str) (slice : List MeaningChunk) :
    List StoreRow :=
  mkRowsGo embed rel 0 slice

/-- The batching loop `for (let i = 0; i < chunks.length; i += BATCH)`
with `BATCH = 16`: consecutive slices of 16 chunks.  Fuel is the list
length (each step drops at least one element). -/
def batchedGo : Nat → List MeaningChunk → List (List MeaningChunk)
  | 0, _ => []
  | _, [] => []
  | fuel + 1, l => l.take 16 :: batchedGo fuel (l.drop 16)

def batched (l : List MeaningChunk) : List (List MeaningChunk) :=
  batchedGo l.length l

/-- `embedBatch` returns `dim = vectors[0]?.length ?? 0` for a batch
(and `bake` errors when it is 0). -/
def batchDim (embed : Str → List ℚ) (slice : List MeaningChunk) : Nat :=
  match slice with
  | [] => 0
  | c :: _ => (embed c.text).length

/-- A chunk-record row of the `chunks` table: `rid` is the integer
primary key, `id` the unique chunk id (modelled by its sha1 preimage). -/
structure StoredChunk where
  rid : Nat
  id : Str
  path : Str
  chunk : Str
  sha : Str
  metadata : ChunkMeta
deriving DecidableEq

/-- The persistent store: the `meta` table's `dim` entry, the `chunks`
table (in insertion order), the `vec_chunks` virtual table as an
association of rowids to embeddings, and the next free integer rowid. -/
structure VectorStore where
  dim : Option Nat
  chunks : List StoredChunk
  vecs : List (Nat × List ℚ)
  nextRid : Nat
deriving DecidableEq

def emptyStore : VectorStore := { dim := none, chunks := [], vecs := [], nextRid := 1 }

/-- `VectorStore.setDim`: record the dimension on first call, succeed on
a matching dimension, fail on a mismatch. -/
def setDim (s : VectorStore) (d : Nat) : Except Str VectorStore :=
  match s.dim with
  | none => .ok { s with dim := some d }
  | some d0 => if d0 = d then .ok s else .error (("DB dim mismatch").toList)

/-- `VectorStore.getDim`: fail when no dimension was ever set. -/
def getDim (s : VectorStore) : Except Str Nat :=
  match s.dim with
  | none => .error (("dim not set; bake first").toList)
  | some d => .ok d

/-- The `INSERT … ON CONFLICT(id) DO UPDATE` statement: update the
existing row in place (keeping its rid), else append a fresh row with
the next integer rowid. -/
def upsertChunkMeta (s : VectorStore) (r : StoreRow) : VectorStore :=
  match s.chunks.find? (fun c => c.id == r.idKey) with
  | some _ =>
    { s with chunks := s.chunks.map (fun c =>
        if c.id == r.idKey then
          { rid := c.rid, id := r.idKey, path := r.path, chunk := r.chunk,
            sha := r.shaKey, metadata := r.metadata }
        else c) }
  | none =>
    { s with
      chunks := s.chunks ++
        [{ rid := s.nextRid, id := r.idKey, path := r.path, chunk := r.chunk,
           sha := r.shaKey, metadata := r.metadata }],
      nextRid := s.nextRid + 1 }

/-- Write the vector at a rowid: `UPDATE` first, `INSERT` only when no
row changed (the vector table has no native upsert). -/
def writeVec (vecs : List (Nat × List ℚ)) (rid : Nat) (e : List ℚ) :
    List (Nat × List ℚ) :=
  if vecs.any (fun v => v.1 == rid) then
    vecs.map (fun v => if v.1 == rid then (v.1, e) else v)
  else vecs ++ [(rid, e)]

/-- One iteration of the transaction body of `upsertMany`: check the
embedding length against the store dimension, upsert the chunk record,
re-select its rid, write the vector.  (The `rid` obtained from the
`chunks` table is an integer by construction, so the source's
`Number.isInteger` guard cannot fire in the model.) -/
def upsertStep (d : Nat) (s : VectorStore) (r : StoreRow) :
    Except Str VectorStore :=
  if r.embedding.length ≠ d then .error (("bad dim").toList)
  else
    match (upsertChunkMeta s r).chunks.find? (fun c => c.id == r.idKey) with
    | none => .error (("failed to obtain rid").toList)
    | some c =>
      .ok { upsertChunkMeta s r with
            vecs := writeVec (upsertChunkMeta s r).vecs c.rid r.embedding }

/-- `VectorStore.upsertMany`: the whole batch runs inside one
transaction; a thrown error rolls the transaction back, which the
functional model renders by returning no successor store at all. -/
def upsertMany (s : VectorStore) (rows : List StoreRow) :
    Except Str VectorStore := do
  let d ← getDim s
  rows.foldlM (upsertStep d) s

/-- Everything `bake` needs besides the store: the embedding collaborator
and the chunker inputs. -/
structure BakeCfg where
  embed : Str → List ℚ
  base : BaseMeta
  extractEnt : Str → List Str
  extractCon : Str → List Str

/-- The batches (file path, chunk slice) produced by one bake run over a
document set, in traversal order.  A file with no chunks contributes no
batches (the source's `continue`). -/
def allBatches (cfg : BakeCfg) (docs : List (Str × Str)) :
    List (Str × List MeaningChunk) :=
  docs.flatMap (fun doc =>
    (batched (chunkMarkdownByMeaning cfg.extractEnt cfg.extractCon doc.2 doc.1
      cfg.base ⟨400, mkRat 3 20⟩)).map (fun b => (doc.1, b)))

/-- Process one batch: `embedBatch` (which fails on dimension 0), then
`setDim` on the very first batch of the run (`dimSet` flag), then
`upsertMany`. -/
def processBatch (cfg : BakeCfg) (acc : VectorStore × Bool)
    (b : Str × List MeaningChunk) : Except Str (VectorStore × Bool) :=
  if batchDim cfg.embed b.2 = 0 then .error (("embedding returned dim=0").toList)
  else
    match (if acc.2 then .ok acc.1 else setDim acc.1 (batchDim cfg.embed b.2)) with
    | .error e => .error e
    | .ok s1 =>
      match upsertMany s1 (mkRows cfg.embed b.1 b.2) with
      | .error e => .error e
      | .ok s2 => .ok (s2, true)

/-- `bake` from bake.ts, as a function of the document set and the
starting store. -/
def bakeRun (cfg : BakeCfg) (docs : List (Str × Str)) (s0 : VectorStore) :
    Except Str VectorStore :=
  match (allBatches cfg docs).foldlM (processBatch cfg) (s0, false) with
  | .error e => .error e
  | .ok acc => .ok acc.1

/-- The rows a bake run feeds to the store, batch by batch. -/
def bakeRows (cfg : BakeCfg) (docs : List (Str × Str)) : List StoreRow :=
  (allBatches cfg docs).flatMap (fun b => mkRows cfg.embed b.1 b.2)

/-- The result of `JSON.parse` on a hit's metadata JSON: fields the
search code reads, each possibly absent. -/
structure MetaObj where
  universeTag : Option Str := none
  species : Option Str := none
  subspecies : Option Str := none
  content_type : Option Str := none
  importance_score : Option ℚ := none
  entities : List Str := []
  concepts : List Str := []
  section_title : Option Str := none
  section_path : Option Str := none
  source_file : Option Str := none
deriving DecidableEq

/-- A hit's stored metadata string, by what parsing it yields: absent
(`hit.metadata ? … : {}` falls back to the empty object), unparsable
(`JSON.parse` throws), or parsed. -/
inductive MetaVal
  | noMeta
  | bad
  | parsed (o : MetaObj)
deriving DecidableEq

def metaObjOf : MetaVal → Except Unit MetaObj
  | .noMeta => .ok {}
  | .bad => .error ()
  | .parsed o => .ok o

/-- A raw nearest-neighbour hit from `VectorStore.searchKnn`
(`score = 1/(1+distance)` is set there). -/
structure SearchHit where
  id : Str
  path : Str
  chunk : Str
  distance : ℚ
  score : ℚ
  metadata : MetaVal
deriving DecidableEq

/-- The optional `filters` object of the search options.  A JS field
that is present but falsy (empty string, 0) behaves identically to an
absent one in every per-hit check, so the model represents it as
`none`; `Object.keys(filters).length === 0` then reads "all fields
`none`". -/
structure SearchFilters where
  universeTag : Option Str := none
  species : Option Str := none
  subspecies : Option Str := none
  content_type : Option Str := none
  min_importance : Option ℚ := none
deriving DecidableEq

/-- JS truthiness of an optional string. -/
def strActive : Option Str → Bool
  | none => false
  | some s => !s.isEmpty

/-- JS truthiness of an optional number (`0` is falsy). -/
def numActive : Option ℚ → Bool
  | none => false
  | some m => m.num ≠ 0

def filtersEmpty (f : SearchFilters) : Bool :=
  f.universeTag.isNone && f.species.isNone && f.subspecies.isNone &&
    f.content_type.isNone && f.min_importance.isNone

/-- The per-hit body of `applyFilters`: the guarded early-`false`
returns of the source, in order; an unparsable metadata string is kept
(the `catch` returns `true`). `metadata.importance_score || 0` maps a
missing (or zero) importance to 0. -/
def filterPred (f : SearchFilters) (hit : SearchHit) : Bool :=
  match metaObjOf hit.metadata with
  | .error _ => true
  | .ok o =>
    if strActive f.universeTag && !(o.universeTag == f.universeTag) then false
    else if strActive f.species && !(o.species == f.species) then false
    else if strActive f.subspecies && !(o.subspecies == f.subspecies) then false
    else if strActive f.content_type && !(o.content_type == f.content_type) then false
    else
      match f.min_importance with
      | some m =>
        if m.num ≠ 0 && decide (o.importance_score.getD (mkRat 0 1) < m) then false
        else true
      | none => true

/-- `applyFilters` from search.ts. -/
def applyFilters (hits : List SearchHit) (f : SearchFilters) : List SearchHit :=
  if filtersEmpty f then hits else hits.filter (filterPred f)

def lowerStr (s : Str) : Str := s.map Char.toLower

/-- `split(/\s+/)` modelled as the maximal non-whitespace runs; the
empty token JS produces at a leading separator is dropped, which is
invisible after the `length > 2` filter below. -/
def wordsGo (cur : Str) : Str → List Str
  | [] => if cur = [] then [] else [cur.reverse]
  | c :: cs =>
    if jsWs c then
      if cur = [] then wordsGo [] cs else cur.reverse :: wordsGo [] cs
    else wordsGo (c :: cur) cs

def splitWsRuns (s : Str) : List Str := wordsGo [] s

/-- `query.toLowerCase().split(/\s+/).filter(t => t.length > 2)`. -/
def queryTerms (q : Str) : List Str :=
  (splitWsRuns (lowerStr q)).filter (fun t => t.length > 2)

/-- `metadata.importance_score || 0.5` (JS `||`: 0 is falsy). -/
def impOr05 (o : MetaObj) : ℚ :=
  match o.importance_score with
  | some x => if x.num = 0 then mkRat 1 2 else x
  | none => mkRat 1 2

/-- The per-term boosts of `calculateRelevanceScore` (0.4/0.2 entities,
0.35/0.15 concepts, 0.5/0.3 section title, 0.25 section path, 0.2
source file). -/
def termBoost (o : MetaObj) (entitiesL conceptsL : List Str) (term : Str) : ℚ :=
  (if entitiesL.any (fun e => e == term) then mkRat 2 5
   else if entitiesL.any (fun e => strIncludes e term) then mkRat 1 5
   else mkRat 0 1)
  + (if conceptsL.any (fun c => c == term) then mkRat 7 20
     else if conceptsL.any (fun c => strIncludes c term) then mkRat 3 20
     else mkRat 0 1)
  + (match o.section_title with
     | some t =>
       if lowerStr t == term then mkRat 1 2
       else if strIncludes (lowerStr t) term then mkRat 3 10
       else mkRat 0 1
     | none => mkRat 0 1)
  + (match o.section_path with
     | some p => if strIncludes (lowerStr p) term then mkRat 1 4 else mkRat 0 1
     | none => mkRat 0 1)
  + (match o.source_file with
     | some sf => if strIncludes (lowerStr sf) term then mkRat 1 5 else mkRat 0 1
     | none => mkRat 0 1)

/-- The whole-phrase boosts (0.4 title, 0.3 entities, 0.25 concepts). -/
def phraseBoost (o : MetaObj) (entitiesL conceptsL : List Str) (phrase : Str) : ℚ :=
  (match o.section_title with
   | some t => if strIncludes (lowerStr t) phrase then mkRat 2 5 else mkRat 0 1
   | none => mkRat 0 1)
  + (if entitiesL.any (fun e => strIncludes e phrase) then mkRat 3 10 else mkRat 0 1)
  + (if conceptsL.any (fun c => strIncludes c phrase) then mkRat 1 4 else mkRat 0 1)

/-- The content-type `switch` (+0.1 quote, +0.05 list, +0.03 mixed). -/
def contentTypeBoost (o : MetaObj) : ℚ :=
  match o.content_type with
  | some ct =>
    if ct = ("quote").toList then mkRat 1 10
    else if ct = ("list").toList then mkRat 1 20
    else if ct = ("mixed").toList then mkRat 3 100
    else mkRat 0 1
  | none => mkRat 0 1

/-- The raw-text boosts (+0.1 per matching term, +0.15 for the phrase). -/
def textMatchBoost (chunkL : Str) (terms : List Str) (phrase : Str) : ℚ :=
  (terms.foldl (fun acc t => if strIncludes chunkL t then acc + mkRat 1 10 else acc)
    (mkRat 0 1))
  + (if strIncludes chunkL phrase then mkRat 3 20 else mkRat 0 1)

/-- The un-clamped composite score of `calculateRelevanceScore`: on a
metadata parse failure the `catch` leaves the base similarity score. -/
def rawRelevance (hit : SearchHit) (q : Str) : ℚ :=
  match metaObjOf hit.metadata with
  | .error _ => hit.score
  | .ok o =>
    let terms := queryTerms q
    let entitiesL := o.entities.map lowerStr
    let conceptsL := o.concepts.map lowerStr
    let termMatch :=
      (terms.foldl (fun acc t => acc + termBoost o entitiesL conceptsL t) (mkRat 0 1))
      + phraseBoost o entitiesL conceptsL (lowerStr q)
    let importanceBoost := impOr05 o * mkRat 1 10
    let lengthPenalty :=
      if hit.chunk.length < 100 ∧ impOr05 o < mkRat 7 10 then -(mkRat 1 10)
      else mkRat 0 1
    hit.score + termMatch + importanceBoost + contentTypeBoost o
      + textMatchBoost (lowerStr hit.chunk) terms (lowerStr q) + lengthPenalty

/-- `calculateRelevanceScore`: the composite score clamped to
`[0.001, 2.0]`. -/
def calculateRelevanceScore (hit : SearchHit) (q : Str) : ℚ :=
  max (mkRat 1 1000) (min (mkRat 2 1) (rawRelevance hit q))

structure ScoredHit where
  hit : SearchHit
  relevance_score : ℚ
deriving DecidableEq

/-- The post-KNN part of `search` from search.ts: optional filtering,
re-scoring, `sort((a, b) => b.relevance_score - a.relevance_score)`
(descending, modelled by a stable merge sort, as JS sort is stable),
and `slice(0, k)`. -/
def searchPipeline (hits : List SearchHit) (q : Str) (k : Nat)
    (filters : Option SearchFilters) : List ScoredHit :=
  let h1 :=
    match filters with
    | some f => applyFilters hits f
    | none => hits
  let scored := h1.map (fun h => ⟨h, calculateRelevanceScore h q⟩)
  let sorted := scored.mergeSort
    (fun a b => decide (b.relevance_score ≤ a.relevance_score))
  sorted.take k

/-- The id column of the `chunks` table, in row order. -/
def chunkIds (s : VectorStore) : List Str := s.chunks.map (fun c => c.id)

/-- The chunk-row/vector pairing invariant of the store: every chunk row
has a vector at its rowid and every vector belongs to some chunk row. -/
def Paired (s : VectorStore) : Prop :=
  (∀ c ∈ s.chunks, ∃ e, (c.rid, e) ∈ s.vecs) ∧
    (∀ v ∈ s.vecs, v.1 ∈ s.chunks.map (fun c => c.rid))

/-- Unwrap a successful store computation (used only to name concrete
result stores in closed statements). -/
def extractOk (x : Except Str VectorStore) : VectorStore :=
  match x with
  | .ok s => s
  | .error _ => emptyStore

/-- The importance score exactly as the specification words it: start at
0.5; add `min(0.3, 0.02 × capitalized-word count)`; add `min(0.2, 0.05 ×
emphasized-span count)`; add 0.15 if the quote-line ratio exceeds 0.2;
add 0.1 if the list-line ratio exceeds 0.3; subtract 0.2 if the text is
shorter than 100 characters; clamp to `[0.1, 1.0]`. -/
def importanceSpec (text : Str) : ℚ :=
  let listLines := ((splitNl text).filter isListLine).length
  let numberedLines := ((splitNl text).filter isNumberedLine).length
  let quoteLines := ((splitNl text).filter isQuoteLine).length
  let totalLines := (splitNl text).length
  let quoteRatio : ℚ := (quoteLines : ℚ) / (totalLines : ℚ)
  let listRatio : ℚ := ((listLines : ℚ) + (numberedLines : ℚ)) / (totalLines : ℚ)
  let base : ℚ := 0.5
    + min 0.3 (0.02 * (countCapWords text : ℚ))
    + min 0.2 (0.05 * (countEmph text : ℚ))
    + (if quoteRatio > 0.2 then 0.15 else 0)
    + (if listRatio > 0.3 then 0.1 else 0)
    - (if text.length < 100 then 0.2 else 0)
  max 0.1 (min 1 base)

/-! Concrete inputs used by counterexamples and witnesses. -/

def noExtract : Str → List Str := fun _ => []

def baseW : BaseMeta := ⟨none, none, none⟩

def embedW : Str → List ℚ := fun _ => [mkRat 1 1]

def cfgW : BakeCfg := ⟨embedW, baseW, noExtract, noExtract⟩

/-- 300 pipe characters: a paragraph whose token estimate (750) exceeds
the bake budget of 400 thanks to the table bonus. -/
def c1pipes : Str := List.replicate 300 '|'

/-- A document with one small section `a` followed by an oversized
section `b` that splits into three blocks. -/
def c1doc : Str := ("# a\nx\n# b\n").toList ++ c1pipes ++ '\n' :: '\n' :: c1pipes

def c1name : Str := ("f.md").toList

def c2doc : Str := ("a\n```\n# H\nb\n```\nc").toList

def c8doc : Str := ("```\nx\n```").toList

def c8okdoc : Str := ("hello\nworld").toList

def docW : List (Str × Str) := [((("t.md").toList), ("# t\nhello world").toList)]

def optsW : SplitOptions := ⟨5, mkRat 3 20⟩

def splitTextW : Str := ("aaaaaaaaaaaaaaaaaaaaaaaa\n\nbbbbbbbbbbbbbbbbbbbbbbbb").toList

def secW : DocSection := ⟨("b").toList, splitTextW, none, none⟩

def smallSecW : DocSection := ⟨("a").toList, ("hi").toList, none, none⟩

def dummyMeta : ChunkMeta :=
  ⟨none, none, none, [], [], none, none, [], [], [], .narrative, mkRat 1 2, none⟩

def dummyChunk : MeaningChunk := ⟨[], [], dummyMeta⟩

def dummyRow : StoreRow := ⟨[], [], [], [], [], dummyMeta⟩

def storeW : VectorStore := { dim := some 1, chunks := [], vecs := [], nextRid := 1 }

def rowGoodW : StoreRow :=
  ⟨("id1").toList, ("p").toList, ("x").toList, [mkRat 1 1], ("sh1").toList, dummyMeta⟩

def rowBadW : StoreRow :=
  ⟨("id2").toList, ("p").toList, ("y").toList, [mkRat 1 1, mkRat 1 1], ("sh2").toList, dummyMeta⟩

def oNoImp : MetaObj := { importance_score := none }

def hitNoImp : SearchHit :=
  ⟨("h1").toList, ("p").toList, ("text").toList, mkRat 1 1, mkRat 1 2, .parsed oNoImp⟩

def hitBad : SearchHit :=
  ⟨("h2").toList, ("p").toList, ("text2").toList, mkRat 1 1, mkRat 1 2, .bad⟩

def filtersW : SearchFilters := { min_importance := some (mkRat 9 10) }

/-- The sectionizer state after folding all lines (before final flush). -/
def foldedState (md : Str) : SecState := (toLines md).foldl stepLine initState

/-- The text the final flush would emit: the normalized join of the
lines retained in the buffer (lines outside fences, non-heading). -/
def retainedText (md : Str) : Str := normalizeBlock (joinNl (foldedState md).buf)

/-- The overlap event produced when splitting `splitTextW` with
`optsW`: fragment `aaa`, committed block of 24 `a`. -/
def evW : Str × Str :=
  ((("aaa").toList), (("aaaaaaaaaaaaaaaaaaaaaaaa").toList))

def qW : Str := ("q").toList

/-- The second chunk (index 1) produced for `c1doc`: the first block of
split section `b`. -/
def c1chunk1 : MeaningChunk :=
  (chunkMarkdownByMeaning noExtract noExtract c1doc c1name baseW
    ⟨400, mkRat 3 20⟩).getD 1 dummyChunk

/-- The store left behind by a first bake run over `docW` starting from
the empty store. -/
def s1W : VectorStore := extractOk (bakeRun cfgW docW emptyStore)

/-- Lines of a no-heading document never change the heading context or
the emitted sections (they are skipped or buffered). -/
theorem noHeading_fold (lines : List Str) (st : SecState)
    (h : ∀ l ∈ lines, (isHeading l).isNone) :
    (lines.foldl stepLine st).ctx = st.ctx ∧
      (lines.foldl stepLine st).sections = st.sections := by
  induction lines generalizing st with
  | nil => exact ⟨rfl, rfl⟩
  | cons l ls ih =>
    have hl : (isHeading l).isNone := h l (List.mem_cons_self l ls)
    have hrest : ∀ x ∈ ls, (isHeading x).isNone :=
      fun x hx => h x (List.mem_cons_of_mem _ hx)
    have step : (stepLine st l).ctx = st.ctx ∧
        (stepLine st l).sections = st.sections := by
      unfold stepLine
      by_cases hf : isFence l
      · simp [hf]
      · by_cases hin : st.inFence
        · simp [hf, hin]
        · cases hh : isHeading l with
          | some v => rw [hh] at hl; simp at hl
          | none => simp [hf, hin, hh]
    rw [List.foldl_cons]
    obtain ⟨e1, e2⟩ := step
    obtain ⟨i1, i2⟩ := ih (stepLine st l) hrest
    exact ⟨by rw [i1, e1], by rw [i2, e2]⟩

/-- Claim C2, counterexample: in the document
`a / ``` / # H / b / ``` / c` the line `b` lies inside a fenced code
block; the single emitted section has text `a\nc` — the heading inside
the fence did not alter the context (the path is still `intro`), but
the fenced content was not retained: no `b` occurs in the emitted text,
refuting "fence content is retained verbatim in the section buffer". -/
theorem c2_counterexample :
    sectionize c2doc = [⟨("intro").toList, ("a\nc").toList, none, none⟩]
      ∧ 'b' ∉ ("a\nc").toList :=
  ⟨by decide, by decide⟩

/-- Claim C2 (amended): while inside a fenced code block (and on the
fence marker lines themselves) the sectionizer step leaves the heading
context, the emitted sections and the section buffer untouched — fenced
lines never alter the heading context, and they are skipped rather than
retained. -/
theorem c2_fence_suspends (st : SecState) (line : Str)
    (h : st.inFence = true ∨ isFence line = true) :
    (stepLine st line).ctx = st.ctx ∧ (stepLine st line).sections = st.sections
      ∧ (stepLine st line).buf = st.buf := by
  by_cases hf : isFence line
  · simp [stepLine, hf]
  · rcases h with h | h
    · simp [stepLine, hf, h]
    · exact absurd h (by simpa using hf)

theorem c2_fence_suspends_witness :
    (stepLine ⟨{}, [], true, []⟩ (("# H").toList)).ctx = ({} : HCtx)
      ∧ (stepLine ⟨{}, [], true, []⟩ (("# H").toList)).sections = []
      ∧ (stepLine ⟨{}, [], true, []⟩ (("# H").toList)).buf = [] :=
  c2_fence_suspends ⟨{}, [], true, []⟩ (("# H").toList) (Or.inl rfl)

/-- Claim C8, counterexample: the document ` ``` / x / ``` ` has no
heading lines and non-blank text, yet the sectionizer emits no section
at all (its only content sits inside a fence and is skipped), refuting
"a document with no heading lines and non-blank text yields exactly one
section with path `intro`". -/
theorem c8_counterexample :
    ((toLines c8doc).all (fun l => (isHeading l).isNone) = true)
      ∧ trimWs c8doc ≠ []
      ∧ sectionize c8doc = [] :=
  ⟨by decide, by decide, by decide⟩

/-- Claim C8 (amended): the section path follows the stated precedence
(H2+H3 → `h2/h3`; H1+H3 without H2 → `h1/h3`; H2 alone → `h2`; H3 alone
→ `h3`; H1 alone → `h1`; nothing → `intro`), and a document with no
heading lines whose text *outside fenced code blocks* is non-blank
yields exactly one section, with path `intro`. -/
theorem c8_path_precedence :
    (∀ ctx : HCtx,
      (∀ f2 f3, ctx.h2 = some f2 → ctx.h3 = some f3 →
        currentPath ctx = f2.slug ++ '/' :: f3.slug)
      ∧ (∀ f1 f3, ctx.h1 = some f1 → ctx.h2 = none → ctx.h3 = some f3 →
        currentPath ctx = f1.slug ++ '/' :: f3.slug)
      ∧ (∀ f2, ctx.h2 = some f2 → ctx.h3 = none → currentPath ctx = f2.slug)
      ∧ (∀ f3, ctx.h1 = none → ctx.h2 = none → ctx.h3 = some f3 →
        currentPath ctx = f3.slug)
      ∧ (∀ f1, ctx.h1 = some f1 → ctx.h2 = none → ctx.h3 = none →
        currentPath ctx = f1.slug)
      ∧ (ctx.h1 = none → ctx.h2 = none → ctx.h3 = none →
        currentPath ctx = ("intro").toList))
    ∧ (∀ md : Str, (∀ l ∈ toLines md, (isHeading l).isNone) →
        trimWs (retainedText md) ≠ [] →
        sectionize md = [⟨("intro").toList, retainedText md, none, none⟩]) := by
  constructor
  · intro ctx
    obtain ⟨h1, h2, h3⟩ := ctx
    cases h1 <;> cases h2 <;> cases h3 <;>
      refine ⟨?_, ?_, ?_, ?_, ?_, ?_⟩ <;> intros <;> simp_all [currentPath]
  · intro md hnh hnb
    have hf := noHeading_fold (toLines md) initState hnh
    have hctx : (foldedState md).ctx = ({} : HCtx) := hf.1
    have hsec : (foldedState md).sections = [] := hf.2
    show (flush (foldedState md)).sections = _
    unfold flush
    have hr : normalizeBlock (joinNl (foldedState md).buf) = retainedText md := rfl
    rw [hr, if_neg hnb]
    simp [hsec, hctx, currentPath, currentTitle, currentParent, retainedText]

theorem c8_path_precedence_witness :
    currentPath ⟨none, some ⟨2, ("h2").toList, ("H2").toList⟩,
        some ⟨3, ("h3").toList, ("H3").toList⟩⟩
      = ("h2").toList ++ '/' :: ("h3").toList
    ∧ sectionize c8okdoc = [⟨("intro").toList, retainedText c8okdoc, none, none⟩] :=
  ⟨(c8_path_precedence.1 _).1 _ _ rfl rfl,
   c8_path_precedence.2 c8okdoc (by decide) (by decide)⟩

/-- Claim C6: a chunk emitted for a section carries a non-null
`parent_chunk_id` exactly when the section's token estimate exceeded the
budget **and** the size splitter produced at least two blocks; the value
is always the synthetic id `source_file:section_path`.  A section
emitted as a single chunk (it fit the budget, or had no eligible split
point) has `parent_chunk_id = none`. -/
theorem c6_parent_iff (ee ec : Str → List Str) (sourceFile : Str)
    (base : BaseMeta) (opts : SplitOptions) (sec : DocSection) :
    ∀ c ∈ sectionChunks ee ec sourceFile base opts sec,
      (c.meta.parent_chunk_id ≠ none ↔
        (opts.maxTokens < estimateTokens sec.text
          ∧ 2 ≤ (splitSectionBySize (contextualTextOf sec) opts).length))
      ∧ (∀ pid, c.meta.parent_chunk_id = some pid →
          pid = sourceFile ++ ':' :: sec.path) := by
  intro c hc
  simp only [sectionChunks] at hc
  by_cases h1 : estimateTokens sec.text ≤ opts.maxTokens
  · rw [if_pos h1] at hc
    rw [List.mem_singleton] at hc
    subst hc
    refine ⟨iff_of_false (by simp [mkMeta]) (by omega), ?_⟩
    intro pid hp
    simp [mkMeta] at hp
  · rw [if_neg h1] at hc
    by_cases h2 : (splitSectionBySize (contextualTextOf sec) opts).length ≤ 1
    · rw [if_pos h2] at hc
      rw [List.mem_singleton] at hc
      subst hc
      refine ⟨iff_of_false (by simp [mkMeta]) (by omega), ?_⟩
      intro pid hp
      simp [mkMeta] at hp
    · rw [if_neg h2] at hc
      rw [List.mem_map] at hc
      obtain ⟨p, hp, rfl⟩ := hc
      refine ⟨iff_of_true (by simp [mkMeta]) ⟨by omega, by omega⟩, ?_⟩
      intro pid hpid
      simp only [mkMeta] at hpid
      exact (Option.some_injective _ hpid).symm

theorem c6_parent_iff_witness :
    ((((sectionChunks noExtract noExtract c1name baseW optsW secW).headD
          dummyChunk).meta.parent_chunk_id ≠ none) ↔
      (optsW.maxTokens < estimateTokens secW.text
        ∧ 2 ≤ (splitSectionBySize (contextualTextOf secW) optsW).length))
    ∧ (∀ pid, ((sectionChunks noExtract noExtract c1name baseW optsW secW).headD
          dummyChunk).meta.parent_chunk_id = some pid →
        pid = c1name ++ ':' :: secW.path) :=
  c6_parent_iff noExtract noExtract c1name baseW optsW secW
    ((sectionChunks noExtract noExtract c1name baseW optsW secW).headD dummyChunk)
    (by decide)

/-- `Rat.floor` agrees with the floor of the `FloorRing` instance. -/
theorem ratFloor_eq_intFloor (q : ℚ) : Rat.floor q = ⌊q⌋ := by
  rw [Rat.floor_def', Rat.floor_def]

/-- The kernel-computable product used by `overlapChars` is the real
product `len * ratio`. -/
theorem mkRat_mul_ratio (len : Nat) (r : ℚ) :
    (mkRat ((len : Int) * r.num) r.den : ℚ) = (len : ℚ) * r := by
  rw [Rat.mkRat_eq_divInt, Rat.divInt_eq_div]
  push_cast
  rw [mul_div_assoc, Rat.num_div_den]

theorem overlapChars_eq_floor (len : Nat) (r : ℚ) :
    overlapChars len r = (⌊(len : ℚ) * r⌋).toNat := by
  unfold overlapChars
  rw [ratFloor_eq_intFloor, mkRat_mul_ratio]

/-- Every recorded overlap event is the seeded trailing fragment of its
committed block. -/
theorem splitEvents_shape (text : Str) (opts : SplitOptions) :
    ∀ ev ∈ splitEvents text opts,
      ∃ com, ev = (overlapOf com opts.overlapRatio, com) := by
  unfold splitEvents splitRun
  generalize splitParas text = paras
  suffices h : ∀ acc : SplitAcc,
      (∀ ev ∈ acc.events, ∃ com, ev = (overlapOf com opts.overlapRatio, com)) →
      ∀ ev ∈ (paras.foldl (splitStep opts) acc).events,
        ∃ com, ev = (overlapOf com opts.overlapRatio, com) by
    exact h ⟨[], [], 0, []⟩ (by simp)
  induction paras with
  | nil => intro acc hacc; exact hacc
  | cons p ps ih =>
    intro acc hacc
    rw [List.foldl_cons]
    apply ih
    intro ev hev
    unfold splitStep at hev
    simp only [] at hev
    split at hev
    · split at hev
      · split at hev
        · simp only [List.mem_append, List.mem_singleton] at hev
          rcases hev with hev | hev
          · exact hacc ev hev
          · exact ⟨normalizeBlock (joinParas acc.buf), hev⟩
        · exact hacc ev hev
      · exact hacc ev hev
    · exact hacc ev hev

/-- Claim C7: at every split boundary where an overlap fragment is
seeded, the fragment's length is `⌊r·L⌋` of the previous committed
block's length `L`, hence within `[0.10, 0.20] × L` up to rounding for
every overlap ratio `r ∈ [0.10, 0.20]`:
`L·r − 1 < len ≤ L·r` and `L·0.10 − 1 < len ≤ L·0.20`. -/
theorem c7_overlap_bounds (text : Str) (opts : SplitOptions)
    (h1 : mkRat 1 10 ≤ opts.overlapRatio) (h2 : opts.overlapRatio ≤ mkRat 1 5) :
    ∀ ev ∈ splitEvents text opts,
      ((ev.1.length : ℚ) ≤ (ev.2.length : ℚ) * opts.overlapRatio
        ∧ (ev.2.length : ℚ) * opts.overlapRatio - 1 < (ev.1.length : ℚ))
      ∧ ((ev.1.length : ℚ) ≤ (ev.2.length : ℚ) * mkRat 1 5
        ∧ (ev.2.length : ℚ) * mkRat 1 10 - 1 < (ev.1.length : ℚ)) := by
  have h110 : (mkRat 1 10 : ℚ) = 1 / 10 := by
    rw [Rat.mkRat_eq_divInt, Rat.divInt_eq_div]; norm_num
  have h15 : (mkRat 1 5 : ℚ) = 1 / 5 := by
    rw [Rat.mkRat_eq_divInt, Rat.divInt_eq_div]; norm_num
  set r := opts.overlapRatio with hr
  have hr0 : (0 : ℚ) ≤ r := le_trans (by rw [h110]; norm_num) h1
  have hr1 : r ≤ 1 := le_trans h2 (by rw [h15]; norm_num)
  intro ev hev
  obtain ⟨com, rfl⟩ := splitEvents_shape text opts ev hev
  have hL0 : (0 : ℚ) ≤ (com.length : ℚ) := by positivity
  have hLr0 : (0 : ℚ) ≤ (com.length : ℚ) * r := mul_nonneg hL0 hr0
  have hfl0 : (0 : ℤ) ≤ ⌊(com.length : ℚ) * r⌋ := Int.floor_nonneg.mpr hLr0
  have hkL : overlapChars com.length r ≤ com.length := by
    rw [overlapChars_eq_floor]
    have hle : ⌊(com.length : ℚ) * r⌋ ≤ (com.length : ℤ) := by
      have hx : (com.length : ℚ) * r ≤ (com.length : ℚ) := by nlinarith
      calc ⌊(com.length : ℚ) * r⌋ ≤ ⌊(com.length : ℚ)⌋ := Int.floor_le_floor hx
        _ = (com.length : ℤ) := Int.floor_natCast com.length
    exact Int.toNat_le.mpr hle
  have hlen : ((overlapOf com r).length : ℚ)
      = ((⌊(com.length : ℚ) * r⌋ : ℤ) : ℚ) := by
    have e1 : (overlapOf com r).length = overlapChars com.length r := by
      unfold overlapOf
      rw [List.length_drop]
      omega
    rw [e1, overlapChars_eq_floor]
    exact_mod_cast congrArg (fun z : ℤ => (z : ℚ)) (Int.toNat_of_nonneg hfl0)
  have up : ((⌊(com.length : ℚ) * r⌋ : ℤ) : ℚ) ≤ (com.length : ℚ) * r :=
    Int.floor_le _
  have low : (com.length : ℚ) * r - 1 < ((⌊(com.length : ℚ) * r⌋ : ℤ) : ℚ) :=
    Int.sub_one_lt_floor _
  have hmono1 : (com.length : ℚ) * r ≤ (com.length : ℚ) * mkRat 1 5 :=
    mul_le_mul_of_nonneg_left h2 hL0
  have hmono2 : (com.length : ℚ) * mkRat 1 10 ≤ (com.length : ℚ) * r :=
    mul_le_mul_of_nonneg_left h1 hL0
  refine ⟨⟨?_, ?_⟩, ⟨?_, ?_⟩⟩
  · rw [hlen]; exact up
  · rw [hlen]; exact low
  · rw [hlen]; exact le_trans up hmono1
  · rw [hlen]
    calc (com.length : ℚ) * mkRat 1 10 - 1
        ≤ (com.length : ℚ) * r - 1 := by linarith
      _ < _ := low

theorem c7_overlap_bounds_witness :
    (mkRat 1 10 ≤ optsW.overlapRatio ∧ optsW.overlapRatio ≤ mkRat 1 5
      ∧ evW ∈ splitEvents splitTextW optsW)
    ∧ (((evW.1.length : ℚ) ≤ (evW.2.length : ℚ) * optsW.overlapRatio
        ∧ (evW.2.length : ℚ) * optsW.overlapRatio - 1 < (evW.1.length : ℚ))
      ∧ ((evW.1.length : ℚ) ≤ (evW.2.length : ℚ) * mkRat 1 5
        ∧ (evW.2.length : ℚ) * mkRat 1 10 - 1 < (evW.1.length : ℚ))) :=
  ⟨⟨by decide, by decide, by decide⟩,
   c7_overlap_bounds splitTextW optsW (by decide) (by decide) evW (by decide)⟩

theorem splitNlGo_pos (s : Str) : ∀ cur, 0 < (splitNlGo cur s).length := by
  induction s with
  | nil => intro cur; simp [splitNlGo]
  | cons c cs ih =>
    intro cur
    unfold splitNlGo
    by_cases h : c = '\n'
    · simp [h]
    · simpa [h] using ih (c :: cur)

theorem splitNl_pos (s : Str) : 0 < (splitNl s).length := splitNlGo_pos s []

/-- The scaled-by-100 integer clamp equals the rational clamp of the
specification's formula. -/
theorem c9_key (p e : ℕ) (k1 k2 k3 : ℤ) (q1 q2 q3 : ℚ)
    (h1 : (k1 : ℚ) = 100 * q1) (h2 : (k2 : ℚ) = 100 * q2)
    (h3 : (k3 : ℚ) = 100 * q3) :
    (mkRat (max 10 (min 100 (50 + min 30 (2 * (p : ℤ)) + min 20 (5 * (e : ℤ))
        + k1 + k2 - k3))) 100 : ℚ)
      = max 0.1 (min 1 (0.5 + min 0.3 (0.02 * (p : ℚ)) + min 0.2 (0.05 * (e : ℚ))
        + q1 + q2 - q3)) := by
  rw [Rat.mkRat_eq_divInt, Rat.divInt_eq_div]
  push_cast
  rw [← max_div_div_right (by norm_num : (0:ℚ) ≤ 100)]
  rw [← min_div_div_right (by norm_num : (0:ℚ) ≤ 100)]
  rw [sub_div, add_div, add_div, add_div, add_div]
  rw [← min_div_div_right (by norm_num : (0:ℚ) ≤ 100)]
  rw [← min_div_div_right (by norm_num : (0:ℚ) ≤ 100)]
  rw [h1, h2, h3]
  norm_num
  ring_nf

/-- Claim C9: the importance score computed by `analyzeContent` equals
the specification's closed formula (start at 0.5; add `min(0.3, 0.02 ×
capitalized-word count)`; add `min(0.2, 0.05 × emphasized-span count)`;
add 0.15 if the quote-line ratio exceeds 0.2; add 0.1 if the list-line
ratio exceeds 0.3; subtract 0.2 for texts under 100 characters; clamp to
`[0.1, 1.0]`).  Both sides are pure functions of the text, so identical
input yields an identical score. -/
theorem c9_importance_formula (text : Str) :
    (analyzeContent text).2 = importanceSpec text := by
  unfold analyzeContent importanceSpec
  simp only []
  have hT0 : (0 : ℚ) < ((splitNl text).length : ℚ) := by
    exact_mod_cast splitNl_pos text
  have hq : ((((splitNl text).filter isQuoteLine).length : ℚ)
        / ((splitNl text).length : ℚ) > 0.2)
      ↔ 5 * ((splitNl text).filter isQuoteLine).length > (splitNl text).length := by
    rw [gt_iff_lt, lt_div_iff hT0]
    rw [show (0.2 : ℚ) * ((splitNl text).length : ℚ)
        = ((splitNl text).length : ℚ) / 5 by ring]
    rw [div_lt_iff (by norm_num : (0:ℚ) < 5)]
    norm_cast
    constructor <;> intro h <;> omega
  have hl : (((((splitNl text).filter isListLine).length : ℚ)
          + (((splitNl text).filter isNumberedLine).length : ℚ))
        / ((splitNl text).length : ℚ) > 0.3)
      ↔ 10 * (((splitNl text).filter isListLine).length
            + ((splitNl text).filter isNumberedLine).length)
          > 3 * (splitNl text).length := by
    rw [gt_iff_lt, lt_div_iff hT0]
    rw [show (0.3 : ℚ) * ((splitNl text).length : ℚ)
        = 3 * ((splitNl text).length : ℚ) / 10 by ring]
    rw [div_lt_iff (by norm_num : (0:ℚ) < 10)]
    norm_cast
    constructor <;> intro h <;> omega
  simp only [hq, hl]
  split_ifs <;>
    refine c9_key _ _ _ _ _ _ _ _ (by norm_num) (by norm_num) (by norm_num)

/-- Claim C10: when a `min_importance` filter greater than 0 is active,
a hit whose metadata parses but has no `importance_score` field is
excluded from the results (the missing score reads as 0), whereas a hit
whose metadata fails to parse passes every active filter and is kept by
the filtering stage. -/
theorem c10_min_importance (f : SearchFilters) (hits : List SearchHit)
    (h : SearchHit) (m : ℚ) (hm : f.min_importance = some m) (hm0 : 0 < m) :
    (∀ o, h.metadata = .parsed o → o.importance_score = none →
      h ∉ applyFilters hits f)
    ∧ (h.metadata = .bad → h ∈ hits → h ∈ applyFilters hits f) := by
  have hne : filtersEmpty f = false := by
    unfold filtersEmpty
    rw [hm]
    simp
  have hmnum : m.num ≠ 0 := by
    intro h0
    have hpos := Rat.num_pos.mpr hm0
    omega
  constructor
  · intro o hmeta himp hmem
    unfold applyFilters at hmem
    rw [hne] at hmem
    simp only [Bool.false_eq_true, if_false] at hmem
    have hpred := (List.mem_filter.mp hmem).2
    unfold filterPred at hpred
    rw [hmeta] at hpred
    simp only [metaObjOf] at hpred
    rw [hm] at hpred
    simp [himp, hmnum, Rat.zero_mkRat, hm0] at hpred
  · intro hbad hmem
    unfold applyFilters
    rw [hne]
    simp only [Bool.false_eq_true, if_false]
    refine List.mem_filter.mpr ⟨hmem, ?_⟩
    unfold filterPred
    rw [hbad]
    simp [metaObjOf]

theorem c10_min_importance_witness :
    hitNoImp ∉ applyFilters [hitNoImp, hitBad] filtersW
      ∧ hitBad ∈ applyFilters [hitNoImp, hitBad] filtersW :=
  ⟨(c10_min_importance filtersW [hitNoImp, hitBad] hitNoImp (mkRat 9 10) rfl
      (by decide)).1 oNoImp rfl rfl,
   (c10_min_importance filtersW [hitNoImp, hitBad] hitBad (mkRat 9 10) rfl
      (by decide)).2 rfl (by decide)⟩

/-- A hit with parsed metadata that passes `filterPred` satisfies every
active filter: exact matches on universe/species/subspecies/content
type, and `min_importance ≤` the (defaulted-to-0) importance score. -/
theorem filterPred_eq_true (f : SearchFilters) (h : SearchHit) (o : MetaObj)
    (hmeta : h.metadata = .parsed o) (hp : filterPred f h = true) :
    (strActive f.universeTag = true → o.universeTag = f.universeTag)
    ∧ (strActive f.species = true → o.species = f.species)
    ∧ (strActive f.subspecies = true → o.subspecies = f.subspecies)
    ∧ (strActive f.content_type = true → o.content_type = f.content_type)
    ∧ (∀ m, f.min_importance = some m → m.num ≠ 0 →
        m ≤ o.importance_score.getD (mkRat 0 1)) := by
  unfold filterPred at hp
  rw [hmeta] at hp
  simp only [metaObjOf] at hp
  split_ifs at hp with c1 c2 c3 c4
  refine ⟨?_, ?_, ?_, ?_, ?_⟩
  · intro ha
    simp only [ha, Bool.true_and, Bool.not_eq_true', beq_eq_false_iff_ne, ne_eq,
      Decidable.not_not] at c1
    exact c1
  · intro ha
    simp only [ha, Bool.true_and, Bool.not_eq_true', beq_eq_false_iff_ne, ne_eq,
      Decidable.not_not] at c2
    exact c2
  · intro ha
    simp only [ha, Bool.true_and, Bool.not_eq_true', beq_eq_false_iff_ne, ne_eq,
      Decidable.not_not] at c3
    exact c3
  · intro ha
    simp only [ha, Bool.true_and, Bool.not_eq_true', beq_eq_false_iff_ne, ne_eq,
      Decidable.not_not] at c4
    exact c4
  · intro m hm hm0
    rw [hm] at hp
    replace hp : (if (decide (m.num ≠ 0)
        && decide (o.importance_score.getD (mkRat 0 1) < m)) = true
        then false else true) = true := hp
    by_cases hc : (decide (m.num ≠ 0) && decide (o.importance_score.getD (mkRat 0 1) < m)) = true
    · rw [if_pos hc] at hp
      exact absurd hp (by simp)
    · simp only [Bool.and_eq_true, decide_eq_true_eq, not_and] at hc
      exact not_lt.mp (hc hm0)

/-- Claim C5: for every query, requested count `k` and optional
filters, the search result list has at most `k` entries, is sorted by
non-increasing `relevance_score`, every retained relevance score lies
in `[0.001, 2.0]`, and no returned hit's parsed metadata violates an
active filter (exact universe/species/subspecies/content-type match,
and `importance_score ≥ min_importance`). -/
theorem c5_search_results (hits : List SearchHit) (q : Str) (k : Nat)
    (filters : Option SearchFilters) :
    (searchPipeline hits q k filters).length ≤ k
    ∧ (searchPipeline hits q k filters).Pairwise
        (fun a b => b.relevance_score ≤ a.relevance_score)
    ∧ (∀ s ∈ searchPipeline hits q k filters,
        mkRat 1 1000 ≤ s.relevance_score ∧ s.relevance_score ≤ mkRat 2 1)
    ∧ (∀ s ∈ searchPipeline hits q k filters, ∀ f, filters = some f →
        ∀ o, s.hit.metadata = .parsed o →
          (strActive f.universeTag = true → o.universeTag = f.universeTag)
          ∧ (strActive f.species = true → o.species = f.species)
          ∧ (strActive f.subspecies = true → o.subspecies = f.subspecies)
          ∧ (strActive f.content_type = true → o.content_type = f.content_type)
          ∧ (∀ m, f.min_importance = some m → m.num ≠ 0 →
              m ≤ o.importance_score.getD (mkRat 0 1))) := by
  have hmem : ∀ s ∈ searchPipeline hits q k filters,
      ∃ h, h ∈ (match filters with
          | some f => applyFilters hits f
          | none => hits)
        ∧ s = ⟨h, calculateRelevanceScore h q⟩ := by
    intro s hs
    simp only [searchPipeline] at hs
    have hs1 := List.mem_of_mem_take hs
    rw [List.mem_mergeSort, List.mem_map] at hs1
    obtain ⟨h, hh, hEq⟩ := hs1
    exact ⟨h, hh, hEq.symm⟩
  refine ⟨?_, ?_, ?_, ?_⟩
  · simp only [searchPipeline]
    exact List.length_take_le _ _
  · simp only [searchPipeline]
    apply List.Pairwise.sublist (List.take_sublist _ _)
    have hP := @List.sorted_mergeSort ScoredHit
      (fun a b : ScoredHit => decide (b.relevance_score ≤ a.relevance_score))
      (fun a b c hab hbc => by
        simp only [decide_eq_true_eq] at *
        exact le_trans hbc hab)
      (fun a b => by
        simpa using le_total b.relevance_score a.relevance_score)
      ((match filters with
        | some f => applyFilters hits f
        | none => hits).map (fun h => ⟨h, calculateRelevanceScore h q⟩))
    exact hP.imp (fun hab => by simpa using hab)
  · intro s hs
    obtain ⟨h, hh, rfl⟩ := hmem s hs
    refine ⟨le_max_left _ _, max_le (by decide) (min_le_left _ _)⟩
  · intro s hs f hf o ho
    obtain ⟨h, hh, rfl⟩ := hmem s hs
    subst hf
    replace hh : h ∈ applyFilters hits f := hh
    by_cases he : filtersEmpty f = true
    · unfold filtersEmpty at he
      simp only [Bool.and_eq_true, Option.isNone_iff_eq_none] at he
      rw [he.1.1.1.1, he.1.1.1.2, he.1.1.2, he.1.2, he.2]
      simp [strActive]
    · unfold applyFilters at hh
      rw [if_neg he] at hh
      exact filterPred_eq_true f h o ho (List.mem_filter.mp hh).2

theorem c5_search_results_witness :
    (searchPipeline [hitNoImp, hitBad] qW 2 (some filtersW)).length ≤ 2
    ∧ (searchPipeline [hitNoImp, hitBad] qW 2 (some filtersW)).Pairwise
        (fun a b => b.relevance_score ≤ a.relevance_score)
    ∧ (∀ s ∈ searchPipeline [hitNoImp, hitBad] qW 2 (some filtersW),
        mkRat 1 1000 ≤ s.relevance_score ∧ s.relevance_score ≤ mkRat 2 1)
    ∧ (∀ s ∈ searchPipeline [hitNoImp, hitBad] qW 2 (some filtersW),
        ∀ f, some filtersW = some f →
        ∀ o, s.hit.metadata = .parsed o →
          (strActive f.universeTag = true → o.universeTag = f.universeTag)
          ∧ (strActive f.species = true → o.species = f.species)
          ∧ (strActive f.subspecies = true → o.subspecies = f.subspecies)
          ∧ (strActive f.content_type = true → o.content_type = f.content_type)
          ∧ (∀ m, f.min_importance = some m → m.num ≠ 0 →
              m ≤ o.importance_score.getD (mkRat 0 1))) :=
  c5_search_results [hitNoImp, hitBad] qW 2 (some filtersW)

theorem mkRowsGo_length (embed : Str → List ℚ) (rel : Str) :
    ∀ (l : List MeaningChunk) (j : Nat), (mkRowsGo embed rel j l).length = l.length := by
  intro l
  induction l with
  | nil => intro j; rfl
  | cons c cs ih => intro j; simp [mkRowsGo, ih]

theorem mkRowsGo_getElem (embed : Str → List ℚ) (rel : Str) :
    ∀ (l : List MeaningChunk) (j i : Nat),
      (mkRowsGo embed rel j l)[i]? = (l[i]?).map (fun c => mkRow embed rel c (j + i)) := by
  intro l
  induction l with
  | nil => intro j i; simp [mkRowsGo]
  | cons c cs ih =>
    intro j i
    cases i with
    | zero => simp [mkRowsGo]
    | succ n =>
      simp only [mkRowsGo, List.getElem?_cons_succ]
      rw [ih (j + 1) n]
      have e : j + 1 + n = j + (n + 1) := by omega
      rw [e]

theorem flatMap_map_pair (embed : Str → List ℚ) (rel : Str)
    (bs : List (List MeaningChunk)) :
    ((bs.map (fun b => (rel, b))).flatMap
        (fun b : Str × List MeaningChunk => mkRows embed b.1 b.2))
      = bs.flatMap (fun b => mkRows embed rel b) := by
  induction bs with
  | nil => rfl
  | cons b bs ih => simp only [List.map_cons, List.flatMap_cons, ih]

/-- Core batching fact: the `g`-th row of a file's concatenated batch
rows is built from the `g`-th chunk with sub-index `g % 16`. -/
theorem batched_rows_getElem (embed : Str → List ℚ) (rel : Str) :
    ∀ (fuel : Nat) (l : List MeaningChunk), l.length ≤ fuel →
    ∀ (g : Nat) (c : MeaningChunk), l[g]? = some c →
      ((batchedGo fuel l).flatMap (fun b => mkRows embed rel b))[g]?
        = some (mkRow embed rel c (g % 16)) := by
  intro fuel
  induction fuel with
  | zero =>
    intro l hl g c hg
    have hnil : l = [] := List.length_eq_zero.mp (Nat.le_zero.mp hl)
    subst hnil
    simp at hg
  | succ fuel ih =>
    intro l hl g c hg
    cases l with
    | nil => simp at hg
    | cons x xs =>
      have hglen : g < (x :: xs).length := (List.getElem?_eq_some_iff.mp hg).1
      rw [show batchedGo (fuel + 1) (x :: xs)
          = (x :: xs).take 16 :: batchedGo fuel ((x :: xs).drop 16) from rfl]
      rw [List.flatMap_cons]
      have hlen : (mkRows embed rel ((x :: xs).take 16)).length
          = ((x :: xs).take 16).length := mkRowsGo_length embed rel _ 0
      by_cases hg16 : g < ((x :: xs).take 16).length
      · rw [List.getElem?_append_left (by omega)]
        unfold mkRows
        rw [mkRowsGo_getElem]
        have htk : ((x :: xs).take 16)[g]? = (x :: xs)[g]? := by
          apply List.getElem?_take_of_lt
          have := List.length_take 16 (x :: xs)
          omega
        rw [htk, hg]
        have hg16' : g < 16 := by
          have := List.length_take 16 (x :: xs)
          omega
        simp [Nat.mod_eq_of_lt hg16']
      · push_neg at hg16
        have htake : ((x :: xs).take 16).length = 16 := by
          rw [List.length_take]
          have := List.length_take 16 (x :: xs)
          omega
        have hg16' : 16 ≤ g := by omega
        rw [List.getElem?_append_right (by omega)]
        rw [hlen, htake]
        have hdrop : ((x :: xs).drop 16)[g - 16]? = some c := by
          rw [List.getElem?_drop]
          rw [show 16 + (g - 16) = g from by omega]
          exact hg
        rw [ih ((x :: xs).drop 16)
          (by
            simp only [List.length_drop, List.length_cons] at hl ⊢
            omega)
          (g - 16) c hdrop]
        rw [show (g - 16) % 16 = g % 16 from (Nat.mod_eq_sub_mod hg16').symm]

/-- Claim C1, counterexample: in `c1doc` the sub-index appended to a
split chunk's id key is the row's index within its 16-row embedding
batch, not the block's index within the section's split output.
Section `a` contributes batch row 0, so the three blocks of split
section `b` get keys `f.md:b:1`, `f.md:b:2`, `f.md:b:3`; the claim
would require the first block's key to be `f.md:b:0`. -/
theorem c1_counterexample :
    ((bakeRows cfgW [(c1name, c1doc)]).map StoreRow.idKey)
      = [("f.md:a").toList, ("f.md:b:1").toList, ("f.md:b:2").toList,
         ("f.md:b:3").toList]
    ∧ ((chunkMarkdownByMeaning noExtract noExtract c1doc c1name baseW
          ⟨400, mkRat 3 20⟩).map (fun c => (c.meta.section_path, c.meta.parent_chunk_id)))
      = [((("a").toList), none), ((("b").toList), some (("f.md:b").toList)),
         ((("b").toList), some (("f.md:b").toList)),
         ((("b").toList), some (("f.md:b").toList))]
    ∧ ("f.md:b:1").toList ≠ ("f.md:b:0").toList :=
  ⟨by decide, by decide, by decide⟩

/-- Claim C1 (amended): the stored chunk id is the hash of
`source_file:section_path` for a chunk of an unsplit section, and of
`source_file:section_path:j` for a chunk of a split section, where `j`
is the row's index within its 16-row embedding batch — equivalently the
chunk's index in the file's chunk list modulo 16 — not the block's index
within the section's split output.  Re-baking unchanged content still
reproduces identical ids, the pipeline being a pure function of the
documents. -/
theorem c1_amended (cfg : BakeCfg) (rel md : Str) (g : Nat) (c : MeaningChunk)
    (hg : (chunkMarkdownByMeaning cfg.extractEnt cfg.extractCon md rel cfg.base
        ⟨400, mkRat 3 20⟩)[g]? = some c) :
    (bakeRows cfg [(rel, md)])[g]? = some (mkRow cfg.embed rel c (g % 16))
    ∧ (c.meta.parent_chunk_id = none →
        (mkRow cfg.embed rel c (g % 16)).idKey
          = c.meta.source_file ++ ':' :: c.meta.section_path)
    ∧ (∀ pid, c.meta.parent_chunk_id = some pid →
        (mkRow cfg.embed rel c (g % 16)).idKey
          = c.meta.source_file ++ ':' :: c.meta.section_path
            ++ ':' :: natToStr (g % 16)) := by
  refine ⟨?_, ?_, ?_⟩
  · unfold bakeRows allBatches
    simp only [List.flatMap_cons, List.flatMap_nil, List.append_nil]
    rw [flatMap_map_pair]
    unfold batched
    exact batched_rows_getElem cfg.embed rel _ _ (le_refl _) g c hg
  · intro hpar
    simp [mkRow, rowIdKey, hpar]
  · intro pid hpar
    simp [mkRow, rowIdKey, hpar]

theorem c1_amended_witness :
    ((bakeRows cfgW [(c1name, c1doc)])[1]?
        = some (mkRow cfgW.embed c1name c1chunk1 (1 % 16)))
    ∧ (c1chunk1.meta.parent_chunk_id = none →
        (mkRow cfgW.embed c1name c1chunk1 (1 % 16)).idKey
          = c1chunk1.meta.source_file ++ ':' :: c1chunk1.meta.section_path)
    ∧ (∀ pid, c1chunk1.meta.parent_chunk_id = some pid →
        (mkRow cfgW.embed c1name c1chunk1 (1 % 16)).idKey
          = c1chunk1.meta.source_file ++ ':' :: c1chunk1.meta.section_path
            ++ ':' :: natToStr (1 % 16)) :=
  c1_amended cfgW c1name c1doc 1 c1chunk1 (by decide)

theorem upsertChunkMeta_vecs (s : VectorStore) (r : StoreRow) :
    (upsertChunkMeta s r).vecs = s.vecs := by
  unfold upsertChunkMeta
  split <;> rfl

theorem upsertChunkMeta_dim (s : VectorStore) (r : StoreRow) :
    (upsertChunkMeta s r).dim = s.dim := by
  unfold upsertChunkMeta
  split <;> rfl

theorem writeVec_mem_self (V : List (Nat × List ℚ)) (rid : Nat) (em : List ℚ) :
    ∃ e, (rid, e) ∈ writeVec V rid em := by
  unfold writeVec
  by_cases h : V.any (fun v => v.1 == rid)
  · rw [if_pos h]
    rw [List.any_eq_true] at h
    obtain ⟨v, hv, hvr⟩ := h
    have hveq : v.1 = rid := by simpa using hvr
    refine ⟨em, List.mem_map.mpr ⟨v, hv, ?_⟩⟩
    rw [if_pos hvr, hveq]
  · rw [if_neg h]
    exact ⟨em, List.mem_append_right _ (List.mem_singleton.mpr rfl)⟩

theorem writeVec_mem_preserve (V : List (Nat × List ℚ)) (rid : Nat) (em : List ℚ)
    (a : Nat) (h : ∃ e, (a, e) ∈ V) : ∃ e, (a, e) ∈ writeVec V rid em := by
  obtain ⟨e, he⟩ := h
  unfold writeVec
  by_cases hx : V.any (fun v => v.1 == rid)
  · rw [if_pos hx]
    by_cases ha : a = rid
    · subst ha
      exact ⟨em, List.mem_map.mpr ⟨(a, e), he, by simp⟩⟩
    · exact ⟨e, List.mem_map.mpr ⟨(a, e), he, by simp [ha]⟩⟩
  · rw [if_neg hx]
    exact ⟨e, List.mem_append_left _ he⟩

theorem writeVec_rids (V : List (Nat × List ℚ)) (rid : Nat) (em : List ℚ)
    (v : Nat × List ℚ) (h : v ∈ writeVec V rid em) :
    v.1 = rid ∨ ∃ e, (v.1, e) ∈ V := by
  unfold writeVec at h
  by_cases hx : V.any (fun w => w.1 == rid)
  · rw [if_pos hx] at h
    rw [List.mem_map] at h
    obtain ⟨w, hw, hwe⟩ := h
    by_cases hr : (w.1 == rid) = true
    · left
      rw [← hwe, if_pos hr]
      simpa using hr
    · right
      rw [← hwe, if_neg hr]
      exact ⟨w.2, hw⟩
  · rw [if_neg hx] at h
    rw [List.mem_append] at h
    rcases h with h | h
    · right
      exact ⟨v.2, by simpa using h⟩
    · left
      rw [List.mem_singleton] at h
      rw [h]

theorem find?_append_some_right (p : StoredChunk → Bool) (x : StoredChunk)
    (hx : p x = true) :
    ∀ l : List StoredChunk, l.find? p = none → (l ++ [x]).find? p = some x := by
  intro l
  induction l with
  | nil =>
    intro _
    rw [List.nil_append]
    exact List.find?_cons_of_pos _ hx
  | cons c cs ih =>
    intro hn
    by_cases hc : p c = true
    · rw [List.find?_cons_of_pos _ hc] at hn
      exact absurd hn (by simp)
    · rw [List.find?_cons_of_neg _ (by simp [hc])] at hn
      rw [List.cons_append, List.find?_cons_of_neg _ (by simp [hc])]
      exact ih hn

theorem find?_map_upd (key : Str) (new : StoredChunk → StoredChunk)
    (hnew : ∀ c, (new c).id = key) :
    ∀ (l : List StoredChunk) (c0 : StoredChunk),
      l.find? (fun c => c.id == key) = some c0 →
      (l.map (fun c => if c.id == key then new c else c)).find?
          (fun c => c.id == key) = some (new c0) := by
  intro l
  induction l with
  | nil =>
    intro c0 h
    simp at h
  | cons c cs ih =>
    intro c0 h
    by_cases hc : (c.id == key) = true
    · rw [@List.find?_cons_of_pos _ (fun x => x.id == key) c cs hc] at h
      have hcc : c = c0 := Option.some.inj h
      subst hcc
      simp only [List.map_cons, if_pos hc]
      apply List.find?_cons_of_pos
      rw [hnew]
      simp
    · rw [@List.find?_cons_of_neg _ (fun x => x.id == key) c cs hc] at h
      have hc2 : ((if (c.id == key) = true then new c else c).id == key) ≠ true := by
        rw [if_neg hc]
        exact hc
      simp only [List.map_cons]
      rw [@List.find?_cons_of_neg StoredChunk (fun x => x.id == key) _ _ hc2]
      exact ih c0 h

theorem upsertChunkMeta_find? (s : VectorStore) (r : StoreRow) :
    ∃ c', (upsertChunkMeta s r).chunks.find? (fun c => c.id == r.idKey) = some c'
      ∧ c'.id = r.idKey := by
  unfold upsertChunkMeta
  cases hf : s.chunks.find? (fun c => c.id == r.idKey) with
  | some c0 =>
    refine ⟨⟨c0.rid, r.idKey, r.path, r.chunk, r.shaKey, r.metadata⟩, ?_, rfl⟩
    exact find?_map_upd r.idKey _ (fun c => rfl) s.chunks c0 hf
  | none =>
    refine ⟨⟨s.nextRid, r.idKey, r.path, r.chunk, r.shaKey, r.metadata⟩, ?_, rfl⟩
    exact find?_append_some_right _ _ (by simp) s.chunks hf

theorem chunkIds_upsert_superset (s : VectorStore) (r : StoreRow) (a : Str)
    (h : a ∈ chunkIds s) : a ∈ chunkIds (upsertChunkMeta s r) := by
  unfold chunkIds at h ⊢
  unfold upsertChunkMeta
  cases hf : s.chunks.find? (fun c => c.id == r.idKey) with
  | some c0 =>
    simp only [List.map_map]
    rw [List.mem_map] at h
    obtain ⟨c, hc, hid⟩ := h
    rw [List.mem_map]
    refine ⟨c, hc, ?_⟩
    by_cases hx : c.id = r.idKey
    · simp only [Function.comp_apply, hx, beq_self_eq_true, if_true]
      rw [← hx]
      exact hid
    · simp only [Function.comp_apply, beq_iff_eq, if_neg hx]
      exact hid
  | none =>
    rw [List.map_append]
    exact List.mem_append_left _ h

theorem chunkIds_upsert_of_mem (s : VectorStore) (r : StoreRow)
    (h : r.idKey ∈ chunkIds s) :
    chunkIds (upsertChunkMeta s r) = chunkIds s := by
  have hf : ∃ c0, s.chunks.find? (fun c => c.id == r.idKey) = some c0 := by
    unfold chunkIds at h
    rw [List.mem_map] at h
    obtain ⟨c, hc, hid⟩ := h
    have : (s.chunks.find? (fun c => c.id == r.idKey)).isSome := by
      rw [List.find?_isSome]
      exact ⟨c, hc, by simp [hid]⟩
    exact Option.isSome_iff_exists.mp this
  obtain ⟨c0, hc0⟩ := hf
  unfold chunkIds upsertChunkMeta
  rw [hc0]
  simp only [List.map_map]
  apply List.map_congr_left
  intro c hc
  by_cases hx : c.id = r.idKey
  · simp [Function.comp_apply, hx]
  · simp [Function.comp_apply, hx]

theorem upsertChunkMeta_rids_cases (s : VectorStore) (r : StoreRow) :
    (upsertChunkMeta s r).chunks.map (fun c => c.rid)
        = s.chunks.map (fun c => c.rid)
    ∨ (upsertChunkMeta s r).chunks.map (fun c => c.rid)
        = s.chunks.map (fun c => c.rid) ++ [s.nextRid] := by
  unfold upsertChunkMeta
  cases hf : s.chunks.find? (fun c => c.id == r.idKey) with
  | some c0 =>
    left
    simp only [List.map_map]
    apply List.map_congr_left
    intro c hc
    by_cases hx : c.id = r.idKey <;>
      simp [Function.comp_apply, hx]
  | none =>
    right
    rw [List.map_append]
    rfl

theorem upsertChunkMeta_some_eq (s : VectorStore) (r : StoreRow) (c0 : StoredChunk)
    (hf : s.chunks.find? (fun c => c.id == r.idKey) = some c0) :
    upsertChunkMeta s r = { s with chunks := s.chunks.map (fun c =>
      if c.id == r.idKey then
        ⟨c.rid, r.idKey, r.path, r.chunk, r.shaKey, r.metadata⟩
      else c) } := by
  unfold upsertChunkMeta
  rw [hf]

theorem upsertChunkMeta_none_eq (s : VectorStore) (r : StoreRow)
    (hf : s.chunks.find? (fun c => c.id == r.idKey) = none) :
    upsertChunkMeta s r = { s with
      chunks := s.chunks ++
        [⟨s.nextRid, r.idKey, r.path, r.chunk, r.shaKey, r.metadata⟩],
      nextRid := s.nextRid + 1 } := by
  unfold upsertChunkMeta
  rw [hf]

theorem upsertStep_ok (d : Nat) (s : VectorStore) (r : StoreRow)
    (hlen : r.embedding.length = d) :
    ∃ c0, (upsertChunkMeta s r).chunks.find? (fun c => c.id == r.idKey) = some c0
      ∧ c0.id = r.idKey
      ∧ upsertStep d s r = .ok { upsertChunkMeta s r with
          vecs := writeVec (upsertChunkMeta s r).vecs c0.rid r.embedding } := by
  obtain ⟨c0, hf, hid⟩ := upsertChunkMeta_find? s r
  refine ⟨c0, hf, hid, ?_⟩
  unfold upsertStep
  rw [if_neg (by simp [hlen]), hf]

theorem upsertStep_ok_inv (d : Nat) (s : VectorStore) (r : StoreRow)
    (s1 : VectorStore) (h : upsertStep d s r = .ok s1) :
    r.embedding.length = d ∧ ∃ c0,
      (upsertChunkMeta s r).chunks.find? (fun c => c.id == r.idKey) = some c0
      ∧ s1 = { upsertChunkMeta s r with
          vecs := writeVec (upsertChunkMeta s r).vecs c0.rid r.embedding } := by
  unfold upsertStep at h
  by_cases hlen : r.embedding.length ≠ d
  · rw [if_pos hlen] at h
    exact absurd h (by simp)
  · rw [if_neg hlen] at h
    push_neg at hlen
    refine ⟨hlen, ?_⟩
    cases hf : (upsertChunkMeta s r).chunks.find? (fun c => c.id == r.idKey) with
    | none =>
      rw [hf] at h
      exact absurd h (by simp)
    | some c0 =>
      rw [hf] at h
      refine ⟨c0, rfl, ?_⟩
      exact (Except.ok.inj h).symm

theorem upsertStep_err (d : Nat) (s : VectorStore) (r : StoreRow)
    (hlen : r.embedding.length ≠ d) :
    upsertStep d s r = .error (("bad dim").toList) := by
  unfold upsertStep
  rw [if_pos hlen]

theorem upsertChunkMeta_chunks_vec (s : VectorStore) (r : StoreRow)
    (c0 : StoredChunk)
    (hf : (upsertChunkMeta s r).chunks.find? (fun c => c.id == r.idKey) = some c0)
    (hp : ∀ c ∈ s.chunks, ∃ e, (c.rid, e) ∈ s.vecs) :
    ∀ c1 ∈ (upsertChunkMeta s r).chunks,
      ∃ e, (c1.rid, e) ∈ writeVec s.vecs c0.rid r.embedding := by
  intro c1 h1
  cases hfx : s.chunks.find? (fun c => c.id == r.idKey) with
  | some cx =>
    rw [upsertChunkMeta_some_eq s r cx hfx] at h1
    dsimp only at h1
    rw [List.mem_map] at h1
    obtain ⟨c, hc, hce⟩ := h1
    have hrid : c1.rid = c.rid := by
      rw [← hce]
      by_cases hx : c.id = r.idKey <;> simp [hx]
    rw [hrid]
    exact writeVec_mem_preserve _ _ _ _ (hp c hc)
  | none =>
    rw [upsertChunkMeta_none_eq s r hfx] at h1 hf
    dsimp only at h1 hf
    have hnew := find?_append_some_right (fun c => c.id == r.idKey)
      ⟨s.nextRid, r.idKey, r.path, r.chunk, r.shaKey, r.metadata⟩ (by simp)
      s.chunks hfx
    rw [hnew] at hf
    have hc0 : c0 = ⟨s.nextRid, r.idKey, r.path, r.chunk, r.shaKey, r.metadata⟩ :=
      (Option.some.inj hf).symm
    rw [List.mem_append] at h1
    rcases h1 with h1 | h1
    · exact writeVec_mem_preserve _ _ _ _ (hp c1 h1)
    · rw [List.mem_singleton] at h1
      subst h1
      rw [hc0]
      exact writeVec_mem_self _ _ _

theorem upsertStep_preserve (d : Nat) (s : VectorStore) (r : StoreRow)
    (s1 : VectorStore) (hp : Paired s) (h : upsertStep d s r = .ok s1) :
    Paired s1 ∧ s1.dim = s.dim ∧ r.idKey ∈ chunkIds s1
      ∧ ∀ a ∈ chunkIds s, a ∈ chunkIds s1 := by
  obtain ⟨hlen, c0, hf, hs1⟩ := upsertStep_ok_inv d s r s1 h
  subst hs1
  have hvecs := upsertChunkMeta_vecs s r
  refine ⟨⟨?_, ?_⟩, ?_, ?_, ?_⟩
  · intro c1 h1
    dsimp only at h1 ⊢
    rw [hvecs]
    exact upsertChunkMeta_chunks_vec s r c0 hf hp.1 c1 h1
  · intro v hv
    dsimp only at hv ⊢
    rw [hvecs] at hv
    rcases writeVec_rids s.vecs c0.rid r.embedding v hv with hr | ⟨e, he⟩
    · rw [hr]
      exact List.mem_map.mpr ⟨c0, List.mem_of_find?_eq_some hf, rfl⟩
    · have hm := hp.2 (v.1, e) he
      rcases upsertChunkMeta_rids_cases s r with hc | hc
      · rw [hc]
        exact hm
      · rw [hc]
        exact List.mem_append_left _ hm
  · dsimp only
    exact upsertChunkMeta_dim s r
  · have hid : c0.id = r.idKey := by simpa using List.find?_some hf
    unfold chunkIds
    dsimp only
    exact List.mem_map.mpr ⟨c0, List.mem_of_find?_eq_some hf, hid⟩
  · intro a ha
    have := chunkIds_upsert_superset s r a ha
    unfold chunkIds at this ⊢
    dsimp only
    exact this

theorem upsertMany_err_of_bad (d : Nat) :
    ∀ (rows : List StoreRow) (s : VectorStore),
      (∃ r ∈ rows, r.embedding.length ≠ d) →
      ∃ e, rows.foldlM (upsertStep d) s = .error e := by
  intro rows
  induction rows with
  | nil =>
    intro s hbad
    obtain ⟨r, hr, _⟩ := hbad
    exact absurd hr (List.not_mem_nil r)
  | cons r rs ih =>
    intro s hbad
    by_cases hlen : r.embedding.length = d
    · obtain ⟨c0, _, _, hok⟩ := upsertStep_ok d s r hlen
      have hrest : ∃ r' ∈ rs, r'.embedding.length ≠ d := by
        rcases hbad with ⟨r', hr', hb⟩
        rcases List.mem_cons.mp hr' with h1 | h1
        · subst h1
          exact absurd hlen hb
        · exact ⟨r', h1, hb⟩
      obtain ⟨e, he⟩ := ih _ hrest
      refine ⟨e, ?_⟩
      rw [List.foldlM_cons, hok]
      exact he
    · refine ⟨("bad dim").toList, ?_⟩
      rw [List.foldlM_cons, upsertStep_err d s r hlen]
      rfl

theorem upsertMany_fold_ok (d : Nat) :
    ∀ (rows : List StoreRow) (s : VectorStore), Paired s →
      ∀ s1, rows.foldlM (upsertStep d) s = .ok s1 →
        Paired s1 ∧ s1.dim = s.dim
          ∧ (∀ a ∈ chunkIds s, a ∈ chunkIds s1)
          ∧ ∀ r ∈ rows, r.idKey ∈ chunkIds s1 := by
  intro rows
  induction rows with
  | nil =>
    intro s hp s1 h
    have hss : s = s1 := Except.ok.inj h
    subst hss
    exact ⟨hp, rfl, fun a ha => ha, by simp⟩
  | cons r rs ih =>
    intro s hp s1 h
    cases hstep : upsertStep d s r with
    | error e =>
      rw [List.foldlM_cons, hstep] at h
      exact absurd h (by simp [Bind.bind, Except.bind])
    | ok smid =>
      rw [List.foldlM_cons, hstep] at h
      replace h : rs.foldlM (upsertStep d) smid = .ok s1 := h
      obtain ⟨hpm, hdimm, hkeym, hsupm⟩ := upsertStep_preserve d s r smid hp hstep
      obtain ⟨hp1, hdim1, hsup1, hall1⟩ := ih smid hpm s1 h
      refine ⟨hp1, by rw [hdim1, hdimm], ?_, ?_⟩
      · intro a ha
        exact hsup1 a (hsupm a ha)
      · intro r' hr'
        rcases List.mem_cons.mp hr' with h1 | h1
        · subst h1
          exact hsup1 r'.idKey hkeym
        · exact hall1 r' h1

/-- Claim C3: for every batch passed to `VectorStore.upsertMany` on a
store with an established dimension and a consistent chunk/vector
pairing, if any row's embedding length differs from the store dimension
the call fails — the transactional model returns an error and no
successor store, so no row of the batch is persisted — and after any
successful `upsertMany` every chunk row written in the batch has a
matching vector entry at its integer rowid and, store-wide, every chunk
row has a vector at its rowid and every vector belongs to a chunk row. -/
theorem c3_upsert_atomic (s : VectorStore) (rows : List StoreRow) (d : Nat)
    (hdim : s.dim = some d) (hp : Paired s) :
    ((∃ r ∈ rows, r.embedding.length ≠ d) →
        ∃ e, upsertMany s rows = .error e) ∧
    (∀ s1, upsertMany s rows = .ok s1 →
        Paired s1 ∧
        ∀ r ∈ rows, ∃ c ∈ s1.chunks, c.id = r.idKey
          ∧ ∃ e, (c.rid, e) ∈ s1.vecs) := by
  have hm : upsertMany s rows = rows.foldlM (upsertStep d) s := by
    unfold upsertMany getDim
    rw [hdim]
    rfl
  constructor
  · intro hbad
    obtain ⟨e, he⟩ := upsertMany_err_of_bad d rows s hbad
    exact ⟨e, by rw [hm]; exact he⟩
  · intro s1 h
    rw [hm] at h
    obtain ⟨hp1, _, _, hall⟩ := upsertMany_fold_ok d rows s hp s1 h
    refine ⟨hp1, ?_⟩
    intro r hr
    have hkey := hall r hr
    unfold chunkIds at hkey
    rw [List.mem_map] at hkey
    obtain ⟨c, hc, hcid⟩ := hkey
    exact ⟨c, hc, hcid, hp1.1 c hc⟩

theorem c3_upsert_atomic_witness :
    ((∃ r ∈ [rowBadW], r.embedding.length ≠ 1) →
        ∃ e, upsertMany storeW [rowBadW] = .error e) ∧
    (∀ s1, upsertMany storeW [rowBadW] = .ok s1 →
        Paired s1 ∧
        ∀ r ∈ [rowBadW], ∃ c ∈ s1.chunks, c.id = r.idKey
          ∧ ∃ e, (c.rid, e) ∈ s1.vecs) :=
  c3_upsert_atomic storeW [rowBadW] 1 rfl
    ⟨fun c hc => absurd hc (by simp [storeW]),
     fun v hv => absurd hv (by simp [storeW])⟩

theorem upsertMany_ok_inv (s : VectorStore) (rows : List StoreRow)
    (s1 : VectorStore) (h : upsertMany s rows = .ok s1) :
    ∃ d, s.dim = some d ∧ rows.foldlM (upsertStep d) s = .ok s1 := by
  unfold upsertMany getDim at h
  cases hd : s.dim with
  | none =>
    rw [hd] at h
    replace h : (Except.error (("dim not set; bake first").toList) :
        Except Str VectorStore) = .ok s1 := h
    exact Except.noConfusion h
  | some d =>
    rw [hd] at h
    exact ⟨d, rfl, h⟩

theorem upsertMany_fold_lengths (d : Nat) :
    ∀ (rows : List StoreRow) (s s1 : VectorStore),
      rows.foldlM (upsertStep d) s = .ok s1 →
      ∀ r ∈ rows, r.embedding.length = d := by
  intro rows
  induction rows with
  | nil =>
    intro s s1 _ r hr
    exact absurd hr (List.not_mem_nil r)
  | cons r rs ih =>
    intro s s1 h r' hr'
    rw [List.foldlM_cons] at h
    cases hstep : upsertStep d s r with
    | error e =>
      rw [hstep] at h
      replace h : (Except.error e : Except Str VectorStore) = .ok s1 := h
      exact Except.noConfusion h
    | ok smid =>
      rw [hstep] at h
      replace h : rs.foldlM (upsertStep d) smid = .ok s1 := h
      rcases List.mem_cons.mp hr' with h1 | h1
      · subst h1
        exact (upsertStep_ok_inv d s r' smid hstep).1
      · exact ih smid s1 h r' h1

theorem upsertMany_post (s : VectorStore) (rows : List StoreRow)
    (s1 : VectorStore) (hp : Paired s) (h : upsertMany s rows = .ok s1) :
    ∃ d, s.dim = some d ∧ Paired s1 ∧ s1.dim = some d
      ∧ (∀ a ∈ chunkIds s, a ∈ chunkIds s1)
      ∧ ∀ r ∈ rows, r.idKey ∈ chunkIds s1 ∧ r.embedding.length = d := by
  obtain ⟨d, hd, hfold⟩ := upsertMany_ok_inv s rows s1 h
  obtain ⟨hp1, hdim1, hsup, hall⟩ := upsertMany_fold_ok d rows s hp s1 hfold
  have hlen := upsertMany_fold_lengths d rows s s1 hfold
  exact ⟨d, hd, hp1, by rw [hdim1, hd], hsup,
    fun r hr => ⟨hall r hr, hlen r hr⟩⟩

theorem upsertFold_replay (d : Nat) :
    ∀ (rows : List StoreRow) (t : VectorStore),
      Paired t → t.dim = some d →
      (∀ r ∈ rows, r.embedding.length = d ∧ r.idKey ∈ chunkIds t) →
      ∃ t1, rows.foldlM (upsertStep d) t = .ok t1
        ∧ chunkIds t1 = chunkIds t ∧ Paired t1 ∧ t1.dim = some d := by
  intro rows
  induction rows with
  | nil =>
    intro t hp hd _
    exact ⟨t, rfl, rfl, hp, hd⟩
  | cons r rs ih =>
    intro t hp hd hrows
    obtain ⟨hlen, hkey⟩ := hrows r (List.mem_cons_self r rs)
    obtain ⟨c0, hf, hid, hok⟩ := upsertStep_ok d t r hlen
    obtain ⟨hpm, hdimm, _, hsupm⟩ :=
      upsertStep_preserve d t r _ hp hok
    have hidsm : chunkIds { upsertChunkMeta t r with
        vecs := writeVec (upsertChunkMeta t r).vecs c0.rid r.embedding }
          = chunkIds t := by
    
      have h1 : chunkIds { upsertChunkMeta t r with
          vecs := writeVec (upsertChunkMeta t r).vecs c0.rid r.embedding }
            = chunkIds (upsertChunkMeta t r) := rfl
      rw [h1]
      exact chunkIds_upsert_of_mem t r hkey
    have hrows1 : ∀ r' ∈ rs, r'.embedding.length = d
        ∧ r'.idKey ∈ chunkIds { upsertChunkMeta t r with
            vecs := writeVec (upsertChunkMeta t r).vecs c0.rid r.embedding } := by
      intro r' hr'
      obtain ⟨hl, hk⟩ := hrows r' (List.mem_cons_of_mem r hr')
      exact ⟨hl, by rw [hidsm]; exact hk⟩
    obtain ⟨t1, hfold, hids1, hp1, hdim1⟩ := ih _ hpm (by rw [hdimm, hd]) hrows1
    refine ⟨t1, ?_, by rw [hids1, hidsm], hp1, hdim1⟩
    rw [List.foldlM_cons, hok]
    exact hfold

theorem upsertMany_replay (d : Nat) (rows : List StoreRow) (t : VectorStore)
    (hp : Paired t) (hd : t.dim = some d)
    (hrows : ∀ r ∈ rows, r.embedding.length = d ∧ r.idKey ∈ chunkIds t) :
    ∃ t1, upsertMany t rows = .ok t1
      ∧ chunkIds t1 = chunkIds t ∧ Paired t1 ∧ t1.dim = some d := by
  obtain ⟨t1, hfold, hids, hp1, hdim1⟩ := upsertFold_replay d rows t hp hd hrows
  refine ⟨t1, ?_, hids, hp1, hdim1⟩
  have hm : upsertMany t rows = rows.foldlM (upsertStep d) t := by
    unfold upsertMany getDim
    rw [hd]
    rfl
  rw [hm]
  exact hfold

theorem setDim_ok_inv (s : VectorStore) (d : Nat) (s1 : VectorStore)
    (h : setDim s d = .ok s1) :
    s1.dim = some d ∧ s1.chunks = s.chunks ∧ s1.vecs = s.vecs
      ∧ ∀ d0, s.dim = some d0 → d0 = d := by
  unfold setDim at h
  cases hd : s.dim with
  | none =>
    rw [hd] at h
    replace h := Except.ok.inj h
    subst h
    exact ⟨rfl, rfl, rfl, fun d0 h0 => Option.noConfusion h0⟩
  | some d0 =>
    rw [hd] at h
    replace h : (if d0 = d then (Except.ok s : Except Str VectorStore)
        else Except.error (("DB dim mismatch").toList)) = Except.ok s1 := h
    by_cases he : d0 = d
    · rw [if_pos he] at h
      replace h := Except.ok.inj h
      subst h
      refine ⟨by rw [hd, he], rfl, rfl, ?_⟩
      intro d1 h1
      rw [← Option.some.inj h1]
      exact he
    · rw [if_neg he] at h
      exact Except.noConfusion h

theorem processBatch_ok_inv (cfg : BakeCfg) (s : VectorStore) (fl : Bool)
    (b : Str × List MeaningChunk) (out : VectorStore × Bool)
    (h : processBatch cfg (s, fl) b = .ok out) :
    batchDim cfg.embed b.2 ≠ 0 ∧ out.2 = true
    ∧ ∃ s1, (if fl = true then (Except.ok s : Except Str VectorStore)
          else setDim s (batchDim cfg.embed b.2)) = .ok s1
      ∧ upsertMany s1 (mkRows cfg.embed b.1 b.2) = .ok out.1 := by
  unfold processBatch at h
  by_cases hd : batchDim cfg.embed b.2 = 0
  · rw [if_pos hd] at h
    exact Except.noConfusion h
  · rw [if_neg hd] at h
    dsimp only at h
    cases hs1 : (if fl = true then (Except.ok s : Except Str VectorStore)
        else setDim s (batchDim cfg.embed b.2)) with
    | error e =>
      rw [hs1] at h
      replace h : (Except.error e : Except Str (VectorStore × Bool)) = .ok out := h
      exact Except.noConfusion h
    | ok s1 =>
      rw [hs1] at h
      replace h : (match upsertMany s1 (mkRows cfg.embed b.1 b.2) with
        | Except.error e => (Except.error e : Except Str (VectorStore × Bool))
        | Except.ok s2 => Except.ok (s2, true)) = Except.ok out := h
      cases hs2 : upsertMany s1 (mkRows cfg.embed b.1 b.2) with
      | error e =>
        rw [hs2] at h
        replace h : (Except.error e : Except Str (VectorStore × Bool)) = .ok out := h
        exact Except.noConfusion h
      | ok s2 =>
        rw [hs2] at h
        replace h : (Except.ok (s2, true) : Except Str (VectorStore × Bool)) = .ok out := h
        replace h := Except.ok.inj h
        refine ⟨hd, ?_, s1, rfl, ?_⟩
        · rw [← h]
        · rw [← h]
          exact hs2

theorem processBatch_ok_of (cfg : BakeCfg) (t : VectorStore) (fl : Bool)
    (b : Str × List MeaningChunk) (tmid t1 : VectorStore)
    (hd : batchDim cfg.embed b.2 ≠ 0)
    (hs : (if fl = true then (Except.ok t : Except Str VectorStore)
        else setDim t (batchDim cfg.embed b.2)) = .ok tmid)
    (hu : upsertMany tmid (mkRows cfg.embed b.1 b.2) = .ok t1) :
    processBatch cfg (t, fl) b = .ok (t1, true) := by
  unfold processBatch
  rw [if_neg hd]
  dsimp only
  rw [hs]
  show (match upsertMany tmid (mkRows cfg.embed b.1 b.2) with
    | Except.error e => (Except.error e : Except Str (VectorStore × Bool))
    | Except.ok s2 => Except.ok (s2, true)) = Except.ok (t1, true)
  rw [hu]

theorem bakeFold_post (cfg : BakeCfg) :
    ∀ (bs : List (Str × List MeaningChunk)) (s : VectorStore) (fl : Bool)
      (acc : VectorStore × Bool),
      Paired s →
      bs.foldlM (processBatch cfg) (s, fl) = .ok acc →
      Paired acc.1
      ∧ (∀ a ∈ chunkIds s, a ∈ chunkIds acc.1)
      ∧ (∀ d0, s.dim = some d0 → acc.1.dim = some d0)
      ∧ (∀ d, acc.1.dim = some d → ∀ b ∈ bs,
          batchDim cfg.embed b.2 ≠ 0
          ∧ ∀ r ∈ mkRows cfg.embed b.1 b.2,
              r.idKey ∈ chunkIds acc.1 ∧ r.embedding.length = d) := by
  intro bs
  induction bs with
  | nil =>
    intro s fl acc hp h
    replace h : (Except.ok (s, fl) : Except Str (VectorStore × Bool)) = .ok acc := h
    replace h := Except.ok.inj h
    subst h
    exact ⟨hp, fun a ha => ha, fun d0 hd0 => hd0,
      fun d _ b hb => absurd hb (List.not_mem_nil b)⟩
  | cons b rest ih =>
    intro s fl acc hp h
    rw [List.foldlM_cons] at h
    cases hpb : processBatch cfg (s, fl) b with
    | error e =>
      rw [hpb] at h
      replace h : (Except.error e : Except Str (VectorStore × Bool)) = .ok acc := h
      exact Except.noConfusion h
    | ok mid =>
      rw [hpb] at h
      replace h : rest.foldlM (processBatch cfg) mid = .ok acc := h
      obtain ⟨hd0, hfl, s1, hs1, hu⟩ := processBatch_ok_inv cfg s fl b mid hpb
      have hps1 : Paired s1 ∧ chunkIds s1 = chunkIds s
          ∧ ∀ d0, s.dim = some d0 → s1.dim = some d0 := by
        by_cases hflc : fl = true
        · rw [if_pos hflc] at hs1
          replace hs1 := Except.ok.inj hs1
          subst hs1
          exact ⟨hp, rfl, fun d0 hd => hd⟩
        · rw [if_neg hflc] at hs1
          obtain ⟨hdim, hch, hvc, huni⟩ :=
            setDim_ok_inv s (batchDim cfg.embed b.2) s1 hs1
          refine ⟨⟨?_, ?_⟩, ?_, ?_⟩
          · intro c hc
            rw [hvc]
            exact hp.1 c (by rw [hch] at hc; exact hc)
          · intro v hv
            rw [hch]
            exact hp.2 v (by rw [hvc] at hv; exact hv)
          · unfold chunkIds
            rw [hch]
          · intro d0 hd
            rw [hdim, huni d0 hd]
      obtain ⟨d1, hs1dim, hpmid, hmiddim, hsupmid, hrowsb⟩ :=
        upsertMany_post s1 (mkRows cfg.embed b.1 b.2) mid.1 hps1.1 hu
      have hmid : mid = (mid.1, true) := by
        cases mid with
        | mk m1 m2 =>
      
          simp only at hfl ⊢
          rw [hfl]
      rw [hmid] at h
      obtain ⟨hpa, hsupa, hdima, hresta⟩ := ih mid.1 true acc hpmid h
      refine ⟨hpa, ?_, ?_, ?_⟩
      · intro a ha
        apply hsupa
        apply hsupmid
        rw [hps1.2.1]
        exact ha
      · intro d0 hd
        have h1 := hps1.2.2 d0 hd
        rw [h1] at hs1dim
        replace hs1dim := Option.some.inj hs1dim
        apply hdima
        rw [hmiddim, hs1dim]
      · intro d hdacc b' hb'
        have hdd1 : d = d1 := by
          have := hdima d1 hmiddim
          rw [this] at hdacc
          exact (Option.some.inj hdacc).symm
        rcases List.mem_cons.mp hb' with h1 | h1
        · subst h1
          refine ⟨hd0, ?_⟩
          intro r hr
          obtain ⟨hk, hl⟩ := hrowsb r hr
          exact ⟨hsupa r.idKey hk, by rw [hdd1]; exact hl⟩
        · exact hresta d hdacc b' h1

theorem bakeFold_replay (cfg : BakeCfg) (d : Nat) :
    ∀ (bs : List (Str × List MeaningChunk)) (t : VectorStore),
      Paired t → t.dim = some d →
      (∀ b ∈ bs, batchDim cfg.embed b.2 ≠ 0
        ∧ ∀ r ∈ mkRows cfg.embed b.1 b.2,
            r.idKey ∈ chunkIds t ∧ r.embedding.length = d) →
      ∃ t2, bs.foldlM (processBatch cfg) (t, true) = .ok (t2, true)
        ∧ chunkIds t2 = chunkIds t ∧ Paired t2 ∧ t2.dim = some d := by
  intro bs
  induction bs with
  | nil =>
    intro t hp hd _
    exact ⟨t, rfl, rfl, hp, hd⟩
  | cons b rest ih =>
    intro t hp hd hbs
    obtain ⟨hbd, hrows⟩ := hbs b (List.mem_cons_self b rest)
    obtain ⟨t1, hu, hids1, hp1, hdim1⟩ := upsertMany_replay d
      (mkRows cfg.embed b.1 b.2) t hp hd
      (fun r hr => ⟨(hrows r hr).2, (hrows r hr).1⟩)
    have hpb : processBatch cfg (t, true) b = .ok (t1, true) :=
      processBatch_ok_of cfg t true b t t1 hbd rfl hu
    have hrest : ∀ b' ∈ rest, batchDim cfg.embed b'.2 ≠ 0
        ∧ ∀ r ∈ mkRows cfg.embed b'.1 b'.2,
            r.idKey ∈ chunkIds t1 ∧ r.embedding.length = d := by
      intro b' hb'
      obtain ⟨h1, h2⟩ := hbs b' (List.mem_cons_of_mem b hb')
      exact ⟨h1, fun r hr => ⟨by rw [hids1]; exact (h2 r hr).1, (h2 r hr).2⟩⟩
    obtain ⟨t2, hfold, hids2, hp2, hdim2⟩ := ih t1 hp1 hdim1 hrest
    refine ⟨t2, ?_, by rw [hids2, hids1], hp2, hdim2⟩
    rw [List.foldlM_cons, hpb]
    exact hfold

/-- Claim C4: running the full indexing (bake) twice over an unchanged
document set is idempotent.  The pipeline is a pure function of the
documents, so the second run feeds the very same rows — identical chunk
ids and identical metadata; every chunk id produced by the run is
already stored after the first run, so each upsert of the second run
overwrites an existing row by id: the second run succeeds, leaves the
stored id column unchanged, and does not increase the number of stored
chunk rows. -/
theorem c4_idempotent (cfg : BakeCfg) (docs : List (Str × Str))
    (s0 s1 : VectorStore) (hp0 : Paired s0)
    (h1 : bakeRun cfg docs s0 = .ok s1) :
    (∀ r ∈ bakeRows cfg docs, r.idKey ∈ chunkIds s1)
    ∧ ∃ s2, bakeRun cfg docs s1 = .ok s2
      ∧ chunkIds s2 = chunkIds s1
      ∧ s2.chunks.length = s1.chunks.length := by
  unfold bakeRun at h1
  cases hacc : (allBatches cfg docs).foldlM (processBatch cfg) (s0, false) with
  | error e =>
    rw [hacc] at h1
    replace h1 : (Except.error e : Except Str VectorStore) = .ok s1 := h1
    exact Except.noConfusion h1
  | ok acc =>
    rw [hacc] at h1
    replace h1 : (Except.ok acc.1 : Except Str VectorStore) = .ok s1 := h1
    replace h1 := Except.ok.inj h1
    cases hbs : allBatches cfg docs with
    | nil =>
      constructor
      · intro r hr
        unfold bakeRows at hr
        rw [hbs] at hr
        simp at hr
      · refine ⟨s1, ?_, rfl, rfl⟩
        unfold bakeRun
        rw [hbs]
        rfl
    | cons b rest =>
      subst h1
      rw [hbs, List.foldlM_cons] at hacc
      cases hpb : processBatch cfg (s0, false) b with
      | error e =>
        rw [hpb] at hacc
        replace hacc : (Except.error e : Except Str (VectorStore × Bool)) = .ok acc := hacc
        exact Except.noConfusion hacc
      | ok mid =>
        rw [hpb] at hacc
        replace hacc : rest.foldlM (processBatch cfg) mid = .ok acc := hacc
        obtain ⟨hbd, hmidfl, sA, hsA, huA⟩ := processBatch_ok_inv cfg s0 false b mid hpb
        replace hsA : setDim s0 (batchDim cfg.embed b.2) = .ok sA := hsA
        obtain ⟨hsAdim, hsAch, hsAvc, _⟩ := setDim_ok_inv s0 _ sA hsA
        have hpA : Paired sA := by
          constructor
          · intro c hc
            rw [hsAvc]
            exact hp0.1 c (by rw [hsAch] at hc; exact hc)
          · intro v hv
            rw [hsAch]
            exact hp0.2 v (by rw [hsAvc] at hv; exact hv)
        obtain ⟨dA, hdA, hpmid, hmiddim, hsupmid, hrowsb⟩ :=
          upsertMany_post sA (mkRows cfg.embed b.1 b.2) mid.1 hpA huA
        have hdAb : dA = batchDim cfg.embed b.2 := by
          rw [hsAdim] at hdA
          exact (Option.some.inj hdA).symm
        have hmid2 : mid = (mid.1, true) := by
          cases mid with
          | mk m1 m2 =>
            simp only at hmidfl ⊢
            rw [hmidfl]
        rw [hmid2] at hacc
        obtain ⟨hpacc, hsupacc, hdimacc, hrestacc⟩ :=
          bakeFold_post cfg rest mid.1 true acc hpmid hacc
        have hs1dim : acc.1.dim = some dA := hdimacc dA hmiddim
        have hkeys : ∀ r ∈ bakeRows cfg docs, r.idKey ∈ chunkIds acc.1 := by
          intro r hr
          unfold bakeRows at hr
          rw [hbs] at hr
          rw [List.mem_flatMap] at hr
          obtain ⟨b1, hb1, hrb⟩ := hr
          rcases List.mem_cons.mp hb1 with hbb | hbb
          · subst hbb
            exact hsupacc r.idKey (hrowsb r hrb).1
          · exact ((hrestacc dA hs1dim b1 hbb).2 r hrb).1
        refine ⟨hkeys, ?_⟩
        have hsd2 : setDim acc.1 (batchDim cfg.embed b.2) = .ok acc.1 := by
          unfold setDim
          rw [hs1dim]
          show (if dA = batchDim cfg.embed b.2
              then (Except.ok acc.1 : Except Str VectorStore)
              else Except.error (("DB dim mismatch").toList)) = Except.ok acc.1
          rw [if_pos hdAb]
        have hrows2 : ∀ r ∈ mkRows cfg.embed b.1 b.2,
            r.embedding.length = dA ∧ r.idKey ∈ chunkIds acc.1 :=
          fun r hr => ⟨(hrowsb r hr).2, hsupacc r.idKey (hrowsb r hr).1⟩
        obtain ⟨t1, hu2, hids1, hpt1, hdimt1⟩ := upsertMany_replay dA
          (mkRows cfg.embed b.1 b.2) acc.1 hpacc hs1dim hrows2
        have hpb2 : processBatch cfg (acc.1, false) b = .ok (t1, true) :=
          processBatch_ok_of cfg acc.1 false b acc.1 t1 hbd hsd2 hu2
        have hrest2 : ∀ b1 ∈ rest, batchDim cfg.embed b1.2 ≠ 0
            ∧ ∀ r ∈ mkRows cfg.embed b1.1 b1.2,
                r.idKey ∈ chunkIds t1 ∧ r.embedding.length = dA := by
          intro b1 hb1
          obtain ⟨hx, hy⟩ := hrestacc dA hs1dim b1 hb1
          exact ⟨hx, fun r hr => ⟨by rw [hids1]; exact (hy r hr).1, (hy r hr).2⟩⟩
        obtain ⟨t2, hfold2, hids2, hpt2, hdimt2⟩ :=
          bakeFold_replay cfg dA rest t1 hpt1 hdimt1 hrest2
        refine ⟨t2, ?_, by rw [hids2, hids1], ?_⟩
        · unfold bakeRun
          rw [hbs, List.foldlM_cons, hpb2]
          show (match rest.foldlM (processBatch cfg) (t1, true) with
            | Except.error e => (Except.error e : Except Str VectorStore)
            | Except.ok a => Except.ok a.1) = Except.ok t2
          rw [hfold2]
        · have hl : (chunkIds t2).length = (chunkIds acc.1).length := by
            rw [hids2, hids1]
          unfold chunkIds at hl
          rw [List.length_map, List.length_map] at hl
          exact hl

theorem c4_idempotent_witness :
    (∀ r ∈ bakeRows cfgW docW, r.idKey ∈ chunkIds s1W)
    ∧ ∃ s2, bakeRun cfgW docW s1W = .ok s2
      ∧ chunkIds s2 = chunkIds s1W
      ∧ s2.chunks.length = s1W.chunks.length :=
  c4_idempotent cfgW docW emptyStore s1W
    ⟨fun c hc => absurd hc (by simp [emptyStore]),
     fun v hv => absurd hv (by simp [emptyStore])⟩
    (by rfl)
